import Mathlib

/-!
A verification development for the `steem-uri` protocol codec and resolver
(`src/index.ts`). The TypeScript source is shallowly embedded here:

* JS binary strings are `List Char` (each char a code unit; a "byte string"
  is a list whose codes are < 256); JS byte arrays are `List Nat`.
* The platform primitives the source calls (`btoa`/`atob`, `JSON.stringify`/
  `JSON.parse`, WHATWG `URL`/`URLSearchParams`) are modelled by executable
  definitions that follow the corresponding web standards on the fragment of
  inputs this protocol exercises; each model notes its scope in a comment.
* JSON numbers are modelled as exact integers. Floating point formatting of
  non-integral numbers is outside the embedding; the parser accepts fraction
  and exponent syntax whenever the denoted value is an integer.
* Fallible JS code (functions that may throw) returns `Option`/`Except`.

Definitions come first, then the lemmas and the claim theorems.
-/

namespace SteemUri

/-! ## Base64 and Base64u

`b64uEnc`/`b64uDec` in the source are `btoa`/`atob` composed with the
6-character substitution table `B64U_LOOKUP`. `btoa` and `atob` are modelled
after the HTML standard: `btoa` rejects characters above U+00FF, `atob`
performs the *forgiving* base64 decode (ASCII whitespace stripped, padding
optional, leftover bits discarded).
-/

/-- ASCII whitespace, the characters stripped by forgiving-base64 decode. -/
def isAsciiWs (c : Char) : Bool :=
  c.toNat = 9 || c.toNat = 10 || c.toNat = 12 || c.toNat = 13 || c.toNat = 32

/-- The standard base64 alphabet: index `i` holds the digit for value `i`. -/
def b64Alphabet : List Char :=
  "ABCDEFGHIJKLMNOPQRSTUVWXYZabcdefghijklmnopqrstuvwxyz0123456789+/".data

/-- The base64 digit for a 6-bit value. -/
def b64Chr (n : Nat) : Char := b64Alphabet.getD n 'A'

/-- Membership in the base64 alphabet. -/
def isB64Char (c : Char) : Bool := b64Alphabet.contains c

/-- The 6-bit value of a base64 digit. -/
def b64Val (c : Char) : Nat := b64Alphabet.indexOf c

/-- Standard base64 encoding of a byte list, including `=` padding. -/
def b64EncBody : List Nat → List Char
  | [] => []
  | [a] => [b64Chr (a / 4), b64Chr (a % 4 * 16), '=', '=']
  | [a, b] => [b64Chr (a / 4), b64Chr (a % 4 * 16 + b / 16), b64Chr (b % 16 * 4), '=']
  | a :: b :: c :: r =>
      b64Chr (a / 4) :: b64Chr (a % 4 * 16 + b / 16) :: b64Chr (b % 16 * 4 + c / 64) ::
        b64Chr (c % 64) :: b64EncBody r

/-- Modelled platform primitive: browser `btoa`. Fails iff some character is
above U+00FF; otherwise base64-encodes the character codes as bytes. -/
def btoa (s : List Char) : Option (List Char) :=
  if s.all (fun c => c.toNat < 256) then some (b64EncBody (s.map Char.toNat)) else none

/-- Decode a list of 6-bit values to bytes, 4 at a time; a leftover group of
2 or 3 values yields 1 or 2 bytes with the spare low bits discarded, exactly
as in the forgiving-base64 decode. A leftover group of 1 cannot occur after
the length check and is rejected. -/
def b64DecBody : List Nat → Option (List Nat)
  | [] => some []
  | [_] => none
  | [a, b] => some [a * 4 + b / 16]
  | [a, b, c] => some [a * 4 + b / 16, b % 16 * 16 + c / 4]
  | a :: b :: c :: d :: r =>
      (b64DecBody r).map
        (fun t => (a * 4 + b / 16) :: (b % 16 * 16 + c / 4) :: (c % 4 * 64 + d) :: t)

/-- Modelled platform primitive: browser `atob` (forgiving-base64 decode):
strip ASCII whitespace; if the length is a multiple of 4, drop one or two
trailing `=`; fail when the remaining length is `1 mod 4` or a character is
outside the base64 alphabet; decode, discarding leftover bits. -/
def atob (s : List Char) : Option (List Char) :=
  let t := s.filter (fun c => !isAsciiWs c)
  let pad := if t.length % 4 = 0 then min (t.reverse.takeWhile (fun c => c = '=')).length 2
    else 0
  let t2 := t.take (t.length - pad)
  if t2.length % 4 = 1 then none
  else if t2.all isB64Char then
    (b64DecBody (t2.map b64Val)).map (fun bytes => bytes.map Char.ofNat)
  else none

/-- The `B64U_LOOKUP` substitution applied by `b64uEnc` after `btoa`:
`+` to `-`, `/` to `_`, `=` to `.` (other characters untouched). -/
def b64uSubst (c : Char) : Char :=
  if c = '+' then '-' else if c = '/' then '_' else if c = '=' then '.' else c

/-- The reverse `B64U_LOOKUP` substitution applied by `b64uDec` before
`atob`: `-` to `+`, `_` to `/`, `.` to `=`. -/
def b64uUnsubst (c : Char) : Char :=
  if c = '-' then '+' else if c = '_' then '/' else if c = '.' then '=' else c

/-- `b64uEnc` from the source: `btoa` then URL-safe substitution. -/
def b64uEnc (s : List Char) : Option (List Char) := (btoa s).map (List.map b64uSubst)

/-- `b64uDec` from the source: reverse substitution then `atob`. -/
def b64uDec (s : List Char) : Option (List Char) := atob (s.map b64uUnsubst)

/-! ## JSON values and the `JSON.stringify` / `JSON.parse` models

A JSON value as the source manipulates it: object member lists keep insertion
order, numbers are exact integers (see the header note on floats).
-/

/-- A JSON value. `obj` members are in insertion order, as a JS object
iterates them. -/
inductive Json where
  | null
  | bool (b : Bool)
  | num (n : Int)
  | str (s : String)
  | arr (elements : List Json)
  | obj (members : List (String × Json))
deriving Repr

/-- Decimal digit characters of `n`, most significant first (`"0"` for 0),
as produced by the JS `String()` conversion of an integral number. -/
def natChars (n : Nat) : List Char :=
  if n = 0 then ['0'] else (Nat.digits 10 n).reverse.map (fun d => Char.ofNat (48 + d))

/-- Decimal rendering of an integer: optional minus sign, then digits. -/
def intChars (i : Int) : List Char :=
  if i < 0 then '-' :: natChars i.natAbs else natChars i.natAbs

/-- Lowercase hex digit, as emitted by `JSON.stringify` in `\u00xx` escapes. -/
def hexDigitLower (n : Nat) : Char :=
  if n < 10 then Char.ofNat (48 + n) else Char.ofNat (87 + n)

/-- One character of a JSON string literal as `JSON.stringify` emits it:
quote and backslash get a backslash escape, the five short control escapes
are used when available, remaining control characters use `\u00xx`, and
every other character is emitted verbatim. -/
def escChar (c : Char) : List Char :=
  if c = '"' then ['\\', '"']
  else if c = '\\' then ['\\', '\\']
  else if c.toNat = 8 then ['\\', 'b']
  else if c.toNat = 9 then ['\\', 't']
  else if c.toNat = 10 then ['\\', 'n']
  else if c.toNat = 12 then ['\\', 'f']
  else if c.toNat = 13 then ['\\', 'r']
  else if c.toNat < 32 then
    ['\\', 'u', '0', '0', hexDigitLower (c.toNat / 16), hexDigitLower (c.toNat % 16)]
  else [c]

/-- A JSON string literal: quote, escaped body, quote. -/
def strLit (s : String) : List Char := '"' :: ((s.data.map escChar).flatten ++ ['"'])

mutual
/-- `JSON.stringify(v, null, 0)` as the source's `encodeJson` calls it:
compact serialization with no whitespace. -/
def jser : Json → List Char
  | .null => "null".data
  | .bool true => "true".data
  | .bool false => "false".data
  | .num n => intChars n
  | .str s => strLit s
  | .arr xs => '[' :: (jserItems xs ++ [']'])
  | .obj ms => '\x7b' :: (jserMembers ms ++ ['\x7d'])
/-- Comma-separated serialization of array elements. -/
def jserItems : List Json → List Char
  | [] => []
  | [x] => jser x
  | x :: y :: r => jser x ++ ',' :: jserItems (y :: r)
/-- Comma-separated serialization of object members (`"key":value`). -/
def jserMembers : List (String × Json) → List Char
  | [] => []
  | [(k, v)] => strLit k ++ ':' :: jser v
  | (k, v) :: m :: r => strLit k ++ ':' :: (jser v ++ ',' :: jserMembers (m :: r))
end

/-- JSON insignificant whitespace: space, tab, line feed, carriage return. -/
def isJWs (c : Char) : Bool :=
  c.toNat = 32 || c.toNat = 9 || c.toNat = 10 || c.toNat = 13

/-- Drop leading JSON whitespace. -/
def skipJWs : List Char → List Char
  | [] => []
  | c :: r => if isJWs c then skipJWs r else c :: r

/-- ASCII decimal digit test. -/
def isDigitC (c : Char) : Bool := 48 ≤ c.toNat && c.toNat ≤ 57

/-- Split a leading run of decimal digits from the input. -/
def takeDigitsL : List Char → List Char × List Char
  | [] => ([], [])
  | c :: r =>
      if isDigitC c then
        let p := takeDigitsL r
        (c :: p.1, p.2)
      else ([], c :: r)

/-- The value of a digit run, most significant first. -/
def digitsVal (l : List Char) : Nat := l.foldl (fun a c => a * 10 + (c.toNat - 48)) 0

/-- The value of a hex digit, both cases, if it is one. -/
def hexValC (c : Char) : Option Nat :=
  if 48 ≤ c.toNat && c.toNat ≤ 57 then some (c.toNat - 48)
  else if 97 ≤ c.toNat && c.toNat ≤ 102 then some (c.toNat - 87)
  else if 65 ≤ c.toNat && c.toNat ≤ 70 then some (c.toNat - 55)
  else none

/-- The optional fraction of a JSON number: a dot must be followed by at
least one digit; no dot consumes nothing. -/
def parseFrac (l2 : List Char) : Option (List Char × List Char) :=
  match l2 with
  | [] => some ([], [])
  | c :: r =>
      if c = '.' then
        (match takeDigitsL r with
         | ([], _) => none
         | (fds, l3) => some (fds, l3))
      else some ([], c :: r)

/-- The digits of an exponent, with its sign. -/
def expDigits (eneg : Bool) (l : List Char) : Option (Bool × List Char × List Char) :=
  match takeDigitsL l with
  | ([], _) => none
  | (eds, l4) => some (eneg, eds, l4)

/-- The optional exponent of a JSON number: `e`/`E`, an optional sign, and
at least one digit; absent otherwise. -/
def parseExp (l3 : List Char) : Option (Bool × List Char × List Char) :=
  match l3 with
  | [] => some (false, [], [])
  | c :: r =>
      if c = 'e' ∨ c = 'E' then
        match r with
        | [] => expDigits false []
        | c2 :: r2 =>
            if c2 = '+' then expDigits false r2
            else if c2 = '-' then expDigits true r2
            else expDigits false (c2 :: r2)
      else some (false, [], c :: r)

/-- Assemble the exact value of a parsed number: integer digits, fraction
digits and signed exponent; an integral result is returned, anything else
is outside the embedding's integral-numbers scope (header note). -/
def mkJNum (neg : Bool) (ids fds eds : List Char) (eneg : Bool) (l4 : List Char) :
    Option (Int × List Char) :=
  let mant : Int := digitsVal (ids ++ fds)
  let mant : Int := if neg then -mant else mant
  let scale : Int := (if eneg then -(digitsVal eds : Int) else (digitsVal eds : Int)) - fds.length
  if 0 ≤ scale then some (mant * 10 ^ scale.toNat, l4)
  else if mant % 10 ^ (-scale).toNat = 0 then some (mant / 10 ^ (-scale).toNat, l4)
  else none

/-- A JSON number after the optional minus sign: integer part without
leading zeros, then fraction and exponent. -/
def parseJNumTail (neg : Bool) (l1 : List Char) : Option (Int × List Char) :=
  match takeDigitsL l1 with
  | ([], _) => none
  | (d :: ds, l2) =>
    if d = '0' ∧ ds ≠ [] then none
    else
      match parseFrac l2 with
      | none => none
      | some (fds, l3) =>
        match parseExp l3 with
        | none => none
        | some (eneg, eds, l4) => mkJNum neg (d :: ds) fds eds eneg l4

/-- A JSON number per the RFC 8259 grammar, reduced to an exact integer.
Returns the value and the unconsumed input; fails when the syntax is
malformed or the denoted value is not an integer (the model's
integral-numbers scope, see the header). -/
def parseJNum (l : List Char) : Option (Int × List Char) :=
  match l with
  | [] => parseJNumTail false []
  | c :: r => if c = '-' then parseJNumTail true r else parseJNumTail false (c :: r)

/-- The character denoted by a short escape, per the JSON grammar. -/
def unescChar (c : Char) : Option Char :=
  if c = '"' then some '"'
  else if c = '\\' then some '\\'
  else if c = '/' then some '/'
  else if c = 'b' then some (Char.ofNat 8)
  else if c = 'f' then some (Char.ofNat 12)
  else if c = 'n' then some (Char.ofNat 10)
  else if c = 'r' then some (Char.ofNat 13)
  else if c = 't' then some (Char.ofNat 9)
  else none

/-- The body of a JSON string literal after the opening quote: unescaped
characters must be above U+001F; `\uXXXX` escapes must denote a Unicode
scalar value (surrogate halves are outside the embedding's `Char` type and
rejected, see the header). Returns the string and the unconsumed input. -/
def parseJStrBody (acc : List Char) : List Char → Option (String × List Char)
  | [] => none
  | c :: rest =>
    if c = '"' then some (String.mk acc.reverse, rest)
    else if c = '\\' then
      match rest with
      | [] => none
      | 'u' :: a :: b :: c2 :: d :: rest3 =>
          (match hexValC a, hexValC b, hexValC c2, hexValC d with
           | some x, some y, some z, some w =>
               let n := ((x * 16 + y) * 16 + z) * 16 + w
               if n.isValidChar then parseJStrBody (Char.ofNat n :: acc) rest3 else none
           | _, _, _, _ => none)
      | e :: rest2 =>
          (match unescChar e with
           | some ch => parseJStrBody (ch :: acc) rest2
           | none => none)
    else if c.toNat < 32 then none
    else parseJStrBody (c :: acc) rest

mutual
/-- One JSON value, by recursion on a fuel counter; callers pass fuel
exceeding the input length, which the grammar can never exhaust since each
nesting level consumes at least one character. -/
def parseJVal : Nat → List Char → Option (Json × List Char)
  | 0, _ => none
  | fuel + 1, l =>
    match skipJWs l with
    | [] => none
    | c :: r =>
      if c = 'n' then
        (match r with
         | 'u' :: 'l' :: 'l' :: r2 => some (.null, r2)
         | _ => none)
      else if c = 't' then
        (match r with
         | 'r' :: 'u' :: 'e' :: r2 => some (.bool true, r2)
         | _ => none)
      else if c = 'f' then
        (match r with
         | 'a' :: 'l' :: 's' :: 'e' :: r2 => some (.bool false, r2)
         | _ => none)
      else if c = '"' then (parseJStrBody [] r).map (fun p => (.str p.1, p.2))
      else if c = '[' then
        (match skipJWs r with
         | [] => none
         | c2 :: r2 =>
             if c2 = ']' then some (.arr [], r2)
             else (parseJItems fuel (c2 :: r2)).map (fun p => (.arr p.1, p.2)))
      else if c = '\x7b' then
        (match skipJWs r with
         | [] => none
         | c2 :: r2 =>
             if c2 = '\x7d' then some (.obj [], r2)
             else (parseJMembers fuel (c2 :: r2)).map (fun p => (.obj p.1, p.2)))
      else (parseJNum (c :: r)).map (fun p => (.num p.1, p.2))
/-- One or more comma-separated array elements, up to the closing bracket. -/
def parseJItems : Nat → List Char → Option (List Json × List Char)
  | 0, _ => none
  | fuel + 1, l =>
    match parseJVal fuel l with
    | none => none
    | some (v, r) =>
      match skipJWs r with
      | [] => none
      | c :: r2 =>
          if c = ',' then
            (match parseJItems fuel r2 with
             | some (vs, r3) => some (v :: vs, r3)
             | none => none)
          else if c = ']' then some ([v], r2)
          else none
/-- One or more comma-separated object members, up to the closing brace. -/
def parseJMembers : Nat → List Char → Option (List (String × Json) × List Char)
  | 0, _ => none
  | fuel + 1, l =>
    match skipJWs l with
    | [] => none
    | c :: r =>
      if c = '"' then
        (match parseJStrBody [] r with
         | none => none
         | some (k, r1) =>
           match skipJWs r1 with
           | [] => none
           | c2 :: r2 =>
             if c2 = ':' then
               (match parseJVal fuel r2 with
                | none => none
                | some (v, r3) =>
                  match skipJWs r3 with
                  | [] => none
                  | c3 :: r4 =>
                      if c3 = ',' then
                        (parseJMembers fuel r4).map (fun p => ((k, v) :: p.1, p.2))
                      else if c3 = '\x7d' then some ([(k, v)], r4)
                      else none)
             else none)
      else none
end

/-- Modelled platform primitive: `JSON.parse` on the grammar fragment above.
A complete JSON document: one value with surrounding whitespace, nothing
after it. -/
def jsonParse (l : List Char) : Option Json :=
  match parseJVal (l.length + 1) l with
  | some (v, r) => if skipJWs r = [] then some v else none
  | none => none

/-! ## UTF-8, percent-encoding and the `URLSearchParams` model

`encodeParameters` serializes through `URLSearchParams.toString()` and
`decode` reads `url.searchParams`; both follow the
`application/x-www-form-urlencoded` format: components are UTF-8 encoded and
percent-encoded (space as `+`), pairs are joined with `=` and `&`.
-/

/-- UTF-8 bytes of one scalar value. -/
def utf8EncChar (c : Char) : List Nat :=
  let n := c.toNat
  if n < 0x80 then [n]
  else if n < 0x800 then [0xC0 + n / 64, 0x80 + n % 64]
  else if n < 0x10000 then [0xE0 + n / 4096, 0x80 + n / 64 % 64, 0x80 + n % 64]
  else [0xF0 + n / 262144, 0x80 + n / 4096 % 64, 0x80 + n / 64 % 64, 0x80 + n % 64]

/-- UTF-8 bytes of a character list. -/
def utf8Enc (l : List Char) : List Nat := (l.map utf8EncChar).flatten

/-- UTF-8 continuation byte test. -/
def isContByte (b : Nat) : Bool := 0x80 ≤ b && b < 0xC0

/-! UTF-8 decoding of a byte list. Exact on every valid encoding; malformed
sequences produce U+FFFD without the standard's maximal-subpart resynching
(never reached by this protocol, whose query components round-trip through
`utf8Enc`). -/
mutual
/-- Decode UTF-8, dispatching on the leading byte. -/
def utf8Dec : List Nat → List Char
  | [] => []
  | b :: r =>
    if b < 0x80 then Char.ofNat b :: utf8Dec r
    else if b < 0xC0 then Char.ofNat 0xFFFD :: utf8Dec r
    else if b < 0xE0 then utf8DecTwo b r
    else if b < 0xF0 then utf8DecThree b r
    else utf8DecFour b r
  termination_by l => 2 * l.length + 1
  decreasing_by all_goals simp_arith
/-- Continuation of a 2-byte sequence. -/
def utf8DecTwo (b : Nat) : List Nat → List Char
  | b2 :: r2 =>
      if isContByte b2 then Char.ofNat ((b - 0xC0) * 64 + (b2 - 0x80)) :: utf8Dec r2
      else Char.ofNat 0xFFFD :: utf8Dec (b2 :: r2)
  | [] => [Char.ofNat 0xFFFD]
  termination_by l => 2 * l.length + 2
  decreasing_by all_goals simp_arith
/-- Continuation of a 3-byte sequence. -/
def utf8DecThree (b : Nat) : List Nat → List Char
  | b2 :: b3 :: r3 =>
      if isContByte b2 && isContByte b3 then
        Char.ofNat ((b - 0xE0) * 4096 + (b2 - 0x80) * 64 + (b3 - 0x80)) :: utf8Dec r3
      else Char.ofNat 0xFFFD :: utf8Dec (b2 :: b3 :: r3)
  | _ => [Char.ofNat 0xFFFD]
  termination_by l => 2 * l.length + 2
  decreasing_by all_goals simp_arith
/-- Continuation of a 4-byte sequence. -/
def utf8DecFour (b : Nat) : List Nat → List Char
  | b2 :: b3 :: b4 :: r4 =>
      if isContByte b2 && isContByte b3 && isContByte b4 then
        Char.ofNat ((b - 0xF0) * 262144 + (b2 - 0x80) * 4096 + (b3 - 0x80) * 64 + (b4 - 0x80))
          :: utf8Dec r4
      else Char.ofNat 0xFFFD :: utf8Dec (b2 :: b3 :: b4 :: r4)
  | _ => [Char.ofNat 0xFFFD]
  termination_by l => 2 * l.length + 2
  decreasing_by all_goals simp_arith
end

/-- Bytes serialized verbatim by the urlencoded serializer:
`*`, `-`, `.`, `_` and ASCII alphanumerics. -/
def isFormSafe (b : Nat) : Bool :=
  b = 0x2A || b = 0x2D || b = 0x2E || (0x30 ≤ b && b ≤ 0x39) ||
    (0x41 ≤ b && b ≤ 0x5A) || b = 0x5F || (0x61 ≤ b && b ≤ 0x7A)

/-- Uppercase hex digit, as percent-encoding emits. -/
def hexDigitUpper (n : Nat) : Char :=
  if n < 10 then Char.ofNat (48 + n) else Char.ofNat (55 + n)

/-- One byte, urlencoded-serialized: space becomes `+`, safe bytes stay
verbatim, everything else is `%XX`. -/
def pctEncByte (b : Nat) : List Char :=
  if b = 0x20 then ['+']
  else if isFormSafe b then [Char.ofNat b]
  else ['%', hexDigitUpper (b / 16), hexDigitUpper (b % 16)]

/-- A string as an urlencoded component: UTF-8 then percent-encoding. -/
def formEncStr (s : String) : List Char := ((utf8Enc s.data).map pctEncByte).flatten

/-- Join serialized pairs with `&`. -/
def joinAmp : List (List Char) → List Char
  | [] => []
  | [x] => x
  | x :: y :: r => x ++ '&' :: joinAmp (y :: r)

/-- Modelled platform primitive: `URLSearchParams.toString()` on a pair
list (the source inserts at most `nb`, `s`, `cb`, in that order). -/
def formUrlEncode (pairs : List (String × String)) : List Char :=
  joinAmp (pairs.map (fun kv => formEncStr kv.1 ++ '=' :: formEncStr kv.2))

/-- `String.split` on a separator character, JS semantics: `n` separators
produce `n + 1` (possibly empty) fields. -/
def splitSep (sep : Char) : List Char → List (List Char)
  | [] => [[]]
  | c :: r =>
      if c = sep then [] :: splitSep sep r
      else
        match splitSep sep r with
        | h :: t => (c :: h) :: t
        | [] => [[c]]

mutual
/-- Percent-decode to bytes: `+` is a space, a valid `%XX` is one byte,
everything else contributes its UTF-8 bytes verbatim. -/
def pctDecBytes : List Char → List Nat
  | [] => []
  | c :: r =>
      if c = '%' then pctDecAfter r
      else if c = '+' then 32 :: pctDecBytes r
      else utf8EncChar c ++ pctDecBytes r
  termination_by l => 2 * l.length + 1
  decreasing_by all_goals simp_arith
/-- What follows a `%`: two hex digits make a byte, anything else leaves
the `%` as a literal byte. -/
def pctDecAfter : List Char → List Nat
  | a :: b :: r2 =>
      (match hexValC a, hexValC b with
       | some x, some y => (x * 16 + y) :: pctDecBytes r2
       | _, _ => 37 :: pctDecBytes (a :: b :: r2))
  | r => 37 :: pctDecBytes r
  termination_by l => 2 * l.length + 2
  decreasing_by all_goals simp_arith
end

/-- One urlencoded component, decoded to a string. -/
def formDecComponent (l : List Char) : String := String.mk (utf8Dec (pctDecBytes l))

/-- Split at the first occurrence of `sep`, if any. -/
def splitFirst (sep : Char) : List Char → Option (List Char × List Char)
  | [] => none
  | c :: r =>
      if c = sep then some ([], r)
      else (splitFirst sep r).map (fun p => (c :: p.1, p.2))

/-- One `name=value` piece of a query string. -/
def parsePiece (piece : List Char) : String × String :=
  match splitFirst '=' piece with
  | some (n, v) => (formDecComponent n, formDecComponent v)
  | none => (formDecComponent piece, "")

/-- Modelled platform primitive: the urlencoded parser behind
`url.searchParams` — split on `&`, drop empty pieces, split each piece at
its first `=`, decode both sides. -/
def formUrlDecode (l : List Char) : List (String × String) :=
  ((splitSep '&' l).filter (fun p => p ≠ [])).map parsePiece

/-- First value for a key, as `URLSearchParams.get` returns it. -/
def spGet (ps : List (String × String)) (k : String) : Option String :=
  (ps.find? (fun p => p.1 = k)).map Prod.snd

/-- Key presence, as `URLSearchParams.has` reports it. -/
def spHas (ps : List (String × String)) (k : String) : Bool :=
  ps.any (fun p => p.1 = k)

/-! ## The WHATWG `URL` model

`decode` reads `url.protocol`, `url.host`, `url.pathname` and
`url.searchParams` of `new URL(steemUrl)`. The model covers non-special
schemes (such as `steem:`) with or without an authority, which is all the
source can accept past its protocol check; userinfo, ports and characters
the URL parser would re-encode are outside its scope and rejected or passed
through verbatim.
-/

/-- The parts of a parsed URL that `decode` reads. `protocol` includes the
trailing colon, `search` excludes the leading question mark. -/
structure UrlParts where
  protocol : List Char
  host : List Char
  pathname : List Char
  search : List Char
deriving Repr, DecidableEq

/-- Scheme characters after the first, per the URL grammar. -/
def isSchemeChar (c : Char) : Bool := c.isAlpha || c.isDigit || c = '+' || c = '-' || c = '.'

/-- Code points forbidden in an opaque host. -/
def isHostForbidden (c : Char) : Bool :=
  c = '@' || c = ':' || c = '[' || c = ']' || c = '\\' || c = '^' || c = '|' ||
    c = '<' || c = '>' || c = ' ' || c.toNat = 0 || c.toNat = 9 || c.toNat = 10 || c.toNat = 13

/-- Split `l` at its first character satisfying `p`. -/
def spanUntil (p : Char → Bool) (l : List Char) : List Char × List Char :=
  (l.takeWhile (fun c => !p c), l.dropWhile (fun c => !p c))

/-- Modelled platform primitive: `new URL(s)` for a non-special scheme,
returning the parts `decode` reads, or `none` where the constructor throws. -/
def parseUrl (l : List Char) : Option UrlParts :=
  let noFrag := (splitSep '#' l).headD []
  match splitFirst ':' noFrag with
  | none => none
  | some (scheme, rest) =>
    match scheme with
    | [] => none
    | s0 :: stail =>
      if !s0.isAlpha then none
      else if !stail.all isSchemeChar then none
      else
        let proto := (s0 :: stail).map Char.toLower ++ [':']
        match rest with
        | '/' :: '/' :: rest2 =>
            let ht := spanUntil (fun c => c = '/' || c = '?') rest2
            if ht.1.any isHostForbidden then none
            else
              match ht.2 with
              | '?' :: q => some ⟨proto, ht.1, [], q⟩
              | [] => some ⟨proto, ht.1, [], []⟩
              | _ =>
                  let pq := spanUntil (fun c => c = '?') ht.2
                  match pq.2 with
                  | '?' :: q => some ⟨proto, ht.1, pq.1, q⟩
                  | _ => some ⟨proto, ht.1, pq.1, []⟩
        | _ =>
            let pq := spanUntil (fun c => c = '?') rest
            match pq.2 with
            | '?' :: q => some ⟨proto, [], pq.1, q⟩
            | _ => some ⟨proto, [], pq.1, []⟩

/-! ## Protocol types (`Parameters`, errors, results) -/

/-- The protocol parameters carried in the query string. `none` models an
absent (`undefined`) field of the TS interface. -/
structure Parameters where
  signer : Option String := none
  callback : Option String := none
  no_broadcast : Option Bool := none
deriving Repr, DecidableEq

/-- The distinct failures `decode` can raise, one per `throw` site:
`malformedUri` for an unparseable URL, `invalidProtocol` and `invalidAction`
for the scheme and host checks, `invalidPayload` for the catch block around
payload decoding (including a missing payload segment, whose `undefined`
dereference is caught there), `invalidSigningAction` for an unrecognized
kind, and `malformedEncoding` for a `cb` query value `atob` rejects. -/
inductive DecodeError where
  | malformedUri
  | invalidProtocol
  | invalidAction
  | invalidSigningAction
  | invalidPayload
  | malformedEncoding
deriving Repr, DecidableEq

/-- The result of `decode`: the (possibly placeholder-carrying) transaction
and the decoded parameters. -/
structure DecodeResult where
  tx : Json
  params : Parameters
deriving Repr

/-! ## The URI decoder -/

/-- The transaction synthesized by `decode` for the `op` and `ops` kinds:
placeholder strings for the block reference and expiration, empty
extensions, and the given `operations` value (used as-is, unvalidated). -/
def synthTx (operations : Json) : Json :=
  Json.obj [("ref_block_num", .str "__ref_block_num"),
            ("ref_block_prefix", .str "__ref_block_prefix"),
            ("expiration", .str "__expiration"),
            ("extensions", .arr []),
            ("operations", operations)]

/-- The query-parameter pass at the end of `decode`: `cb` is Base64u-decoded
into `callback` (an `atob` failure there escapes as its own error), `nb`
presence sets `no_broadcast`, `s` is copied verbatim into `signer`. -/
def decodeParams (search : List Char) : Except DecodeError Parameters :=
  let sp := formUrlDecode search
  let withCb : Except DecodeError Parameters :=
    if spHas sp "cb" then
      match b64uDec ((spGet sp "cb").getD "").data with
      | none => .error .malformedEncoding
      | some cb => .ok { callback := some (String.mk cb) }
    else .ok {}
  match withCb with
  | .error e => .error e
  | .ok p1 =>
    let p2 := if spHas sp "nb" then { p1 with no_broadcast := some true } else p1
    .ok (if spHas sp "s" then { p2 with signer := spGet sp "s" } else p2)

/-- `decode` from the source, step for step: parse the URL, check scheme and
host, take path segments 1 and 2 (extras are silently ignored by the
destructuring), Base64u+JSON decode the payload inside the catch block,
dispatch on the kind, then read the query parameters. -/
def decode (uri : String) : Except DecodeError DecodeResult :=
  match parseUrl uri.data with
  | none => .error .malformedUri
  | some url =>
    if url.protocol ≠ "steem:".data then .error .invalidProtocol
    else if url.host ≠ "sign".data then .error .invalidAction
    else
      let segs := (splitSep '/' url.pathname).drop 1
      match (segs.drop 1).head? with
      | none => .error .invalidPayload
      | some rp =>
        match b64uDec rp with
        | none => .error .invalidPayload
        | some bin =>
          match jsonParse bin with
          | none => .error .invalidPayload
          | some payload =>
            let kind := segs.headD []
            let tx? : Except DecodeError Json :=
              if kind = "tx".data then .ok payload
              else if kind = "op".data then .ok (synthTx (Json.arr [payload]))
              else if kind = "ops".data then .ok (synthTx payload)
              else .error .invalidSigningAction
            match tx? with
            | .error e => .error e
            | .ok tx =>
              match decodeParams url.search with
              | .error e => .error e
              | .ok params => .ok ⟨tx, params⟩

/-! ## The URI encoder -/

/-- `encodeParameters` from the source: insert `nb` when `no_broadcast` is
strictly `true`, `s` when `signer` is truthy (set and non-empty), `cb` when
`callback` is truthy, in that order; serialize, and prefix `?` when
non-empty. A callback `btoa` cannot encode fails the call. -/
def encodeParameters (p : Parameters) : Option (List Char) :=
  let nbPairs : List (String × String) :=
    if p.no_broadcast = some true then [("nb", "")] else []
  let sPairs : List (String × String) :=
    match p.signer with
    | some s => if s = "" then [] else [("s", s)]
    | none => []
  let cbPairs? : Option (List (String × String)) :=
    match p.callback with
    | some cb =>
        if cb = "" then some []
        else (b64uEnc cb.data).map (fun e => [("cb", String.mk e)])
    | none => some []
  match cbPairs? with
  | none => none
  | some cbPairs =>
    let qs := formUrlEncode (nbPairs ++ sPairs ++ cbPairs)
    some (if qs = [] then [] else '?' :: qs)

/-- `encodeJson` from the source: compact JSON then Base64u. -/
def encodeJson (v : Json) : Option (List Char) := b64uEnc (jser v)

/-- `encodeTx` from the source. `none` models the `btoa` throw on
non-Latin-1 content. -/
def encodeTx (tx : Json) (p : Parameters := {}) : Option String :=
  match encodeJson tx, encodeParameters p with
  | some pay, some qs => some (String.mk ("steem://sign/tx/".data ++ pay ++ qs))
  | _, _ => none

/-- `encodeOp` from the source. -/
def encodeOp (op : Json) (p : Parameters := {}) : Option String :=
  match encodeJson op, encodeParameters p with
  | some pay, some qs => some (String.mk ("steem://sign/op/".data ++ pay ++ qs))
  | _, _ => none

/-- `encodeOps` from the source. -/
def encodeOps (ops : Json) (p : Parameters := {}) : Option String :=
  match encodeJson ops, encodeParameters p with
  | some pay, some qs => some (String.mk ("steem://sign/ops/".data ++ pay ++ qs))
  | _, _ => none

/-! ## The placeholder resolver -/

/-- The resolver's failure: the chosen signer is not available. -/
inductive ResolveError where
  | signerUnavailable
deriving Repr, DecidableEq

/-- `ResolveOptions` from the source. The source field `ref_block_prefix`
is shortened to `ref_block_pre` here (same meaning: the ref block prefix
filled into its placeholder); `expiration` is the date string, `signers`
the accounts the app can sign for, `preferred_signer` the fallback. -/
structure ResolveOptions where
  ref_block_num : Int
  ref_block_pre : Int
  expiration : String
  signers : List String
  preferred_signer : String
deriving Repr, DecidableEq

/-- `ResolveResult` from the source: resolved transaction plus signer. -/
structure ResolveResult where
  tx : Json
  signer : String
deriving Repr

/-- The four placeholder tokens of `RESOLVE_PATTERN`, with the concrete
replacement text each maps to in the resolver's `ctx` (numbers pass through
the JS string coercion applied by `String.replace`). -/
structure SubstCtx where
  refNumV : List Char
  refPreV : List Char
  expirationV : List Char
  signerV : List Char
deriving Repr, DecidableEq

/-- Token `__ref_block_num` of `RESOLVE_PATTERN`. -/
def tokRefNum : List Char := "__ref_block_num".data

/-- Token `__ref_block_prefix` of `RESOLVE_PATTERN`. -/
def tokRefPre : List Char := "__ref_block_prefix".data

/-- Token `__expiration` of `RESOLVE_PATTERN`. -/
def tokExpiration : List Char := "__expiration".data

/-- Token `__signer` of `RESOLVE_PATTERN`. -/
def tokSigner : List Char := "__signer".data

/-- `String.replace` with the global `RESOLVE_PATTERN`: scan left to right;
at each position an occurrence of any token — whole-string or embedded — is
replaced by its context value and the scan resumes after it; other
characters are copied. `__ref_block_num` is tried before
`__ref_block_prefix`, following the regex alternation (they cannot both
match at one position). -/
def substTokens (ctx : SubstCtx) (l : List Char) : List Char :=
  match l with
  | [] => []
  | c :: rest =>
    if tokRefNum.isPrefixOf (c :: rest) then
      ctx.refNumV ++ substTokens ctx (rest.drop (tokRefNum.length - 1))
    else if tokRefPre.isPrefixOf (c :: rest) then
      ctx.refPreV ++ substTokens ctx (rest.drop (tokRefPre.length - 1))
    else if tokExpiration.isPrefixOf (c :: rest) then
      ctx.expirationV ++ substTokens ctx (rest.drop (tokExpiration.length - 1))
    else if tokSigner.isPrefixOf (c :: rest) then
      ctx.signerV ++ substTokens ctx (rest.drop (tokSigner.length - 1))
    else c :: substTokens ctx rest
termination_by l.length
decreasing_by
  all_goals simp [List.length_drop]
  all_goals omega

mutual
/-- The resolver's `walk`: strings get token substitution, arrays and
objects recurse (fresh containers, keys untouched), every other value is
returned unchanged. -/
def jwalk (ctx : SubstCtx) : Json → Json
  | .null => .null
  | .bool b => .bool b
  | .num n => .num n
  | .str s => .str (String.mk (substTokens ctx s.data))
  | .arr xs => .arr (jwalkList ctx xs)
  | .obj ms => .obj (jwalkMembers ctx ms)
/-- `walk` mapped over array elements. -/
def jwalkList (ctx : SubstCtx) : List Json → List Json
  | [] => []
  | x :: xs => jwalk ctx x :: jwalkList ctx xs
/-- `walk` mapped over object member values. -/
def jwalkMembers (ctx : SubstCtx) : List (String × Json) → List (String × Json)
  | [] => []
  | (k, v) :: ms => (k, jwalk ctx v) :: jwalkMembers ctx ms
end

/-- `resolveTransaction` from the source: the signer is
`params.signer || options.preferred_signer` (JS truthiness: an empty string
falls back), checked against `options.signers`; on success the transaction
is rewritten by `walk` with the four-token context. -/
def resolveTransaction (utx : Json) (params : Parameters) (options : ResolveOptions) :
    Except ResolveError ResolveResult :=
  let signer := match params.signer with
    | some s => if s = "" then options.preferred_signer else s
    | none => options.preferred_signer
  if options.signers.contains signer then
    let ctx : SubstCtx :=
      ⟨intChars options.ref_block_num, intChars options.ref_block_pre,
        options.expiration.data, signer.data⟩
    .ok ⟨jwalk ctx utx, signer⟩
  else .error .signerUnavailable

/-- The signer `params.signer || options.preferred_signer` selects: the
parameter when set and non-empty (JS truthiness), the preferred signer
otherwise. -/
def chosenSigner (p : Parameters) (o : ResolveOptions) : String :=
  match p.signer with
  | some s => if s = "" then o.preferred_signer else s
  | none => o.preferred_signer

/-! ## The callback resolver -/

/-- `TransactionConfirmation` from the source. -/
structure TransactionConfirmation where
  sig : String
  id : Option String := none
  block : Option Int := none
  txn : Option Int := none
deriving Repr, DecidableEq

/-- Template token `{{sig}}` of `CALLBACK_RESOLVE_PATTERN`. -/
def cbTokSig : List Char := "\x7b\x7bsig\x7d\x7d".data

/-- Template token `{{id}}`. -/
def cbTokId : List Char := "\x7b\x7bid\x7d\x7d".data

/-- Template token `{{block}}`. -/
def cbTokBlock : List Char := "\x7b\x7bblock\x7d\x7d".data

/-- Template token `{{txn}}`. -/
def cbTokTxn : List Char := "\x7b\x7btxn\x7d\x7d".data

/-- The replacement `ctx[m] || ''` computes for an optional string field:
the field when present (an empty string is already empty), else empty. -/
def confStr : Option String → List Char
  | some s => s.data
  | none => []

/-- The replacement `ctx[m] || ''` computes for an optional numeric field:
its decimal string when present and non-zero; empty when absent or zero
(zero is falsy, so `||` discards it). -/
def confNum : Option Int → List Char
  | some n => if n = 0 then [] else intChars n
  | none => []

/-- `String.replace` with the global `CALLBACK_RESOLVE_PATTERN`: each
occurrence of one of the four `{{...}}` tokens is replaced by
`ctx[name] || ''`; all other text, unrecognized `{{...}}` included, is
copied unchanged. -/
def cbSubst (ctx : TransactionConfirmation) (l : List Char) : List Char :=
  match l with
  | [] => []
  | c :: rest =>
    if cbTokSig.isPrefixOf (c :: rest) then
      confStr (some ctx.sig) ++ cbSubst ctx (rest.drop (cbTokSig.length - 1))
    else if cbTokId.isPrefixOf (c :: rest) then
      confStr ctx.id ++ cbSubst ctx (rest.drop (cbTokId.length - 1))
    else if cbTokBlock.isPrefixOf (c :: rest) then
      confNum ctx.block ++ cbSubst ctx (rest.drop (cbTokBlock.length - 1))
    else if cbTokTxn.isPrefixOf (c :: rest) then
      confNum ctx.txn ++ cbSubst ctx (rest.drop (cbTokTxn.length - 1))
    else c :: cbSubst ctx rest
termination_by l.length
decreasing_by
  all_goals simp [List.length_drop]
  all_goals omega

/-- `resolveCallback` from the source. -/
def resolveCallback (url : String) (ctx : TransactionConfirmation) : String :=
  String.mk (cbSubst ctx url.data)

/-! ## Predicates and measures used by the statements and proofs -/

/-- The 6-bit groups of a byte list, before padding (the bit content of
`b64EncBody` without its `=` characters). -/
def b64Sextets : List Nat → List Nat
  | [] => []
  | [a] => [a / 4, a % 4 * 16]
  | [a, b] => [a / 4, a % 4 * 16 + b / 16, b % 16 * 4]
  | a :: b :: c :: r =>
      a / 4 :: (a % 4 * 16 + b / 16) :: (b % 16 * 4 + c / 64) :: c % 64 :: b64Sextets r

/-- How many `=` characters `b64EncBody` appends. -/
def b64PadN : List Nat → Nat
  | [] => 0
  | [_] => 2
  | [_, _] => 1
  | _ :: _ :: _ :: r => b64PadN r

/-- Every character is Latin-1 (code below 256), so `btoa` accepts it. -/
def isLatin1 (l : List Char) : Bool := l.all (fun c => c.toNat < 256)

mutual
/-- Every string in the value — keys included — is Latin-1, so the value
survives `JSON.stringify` piped into `btoa`. -/
def jsonLatin1 : Json → Bool
  | .null => true
  | .bool _ => true
  | .num _ => true
  | .str s => isLatin1 s.data
  | .arr xs => jsonLatin1List xs
  | .obj ms => jsonLatin1Members ms
/-- `jsonLatin1` over array elements. -/
def jsonLatin1List : List Json → Bool
  | [] => true
  | x :: xs => jsonLatin1 x && jsonLatin1List xs
/-- `jsonLatin1` over object members. -/
def jsonLatin1Members : List (String × Json) → Bool
  | [] => true
  | (k, v) :: ms => isLatin1 k.data && jsonLatin1 v && jsonLatin1Members ms
end

mutual
/-- A size measure dominating the parser fuel a value's serialization
needs: positive, and strictly larger than each child's. -/
def jsize : Json → Nat
  | .null => 1
  | .bool _ => 1
  | .num _ => 1
  | .str _ => 1
  | .arr xs => 1 + jsizeList xs
  | .obj ms => 1 + jsizeMembers ms
/-- `jsize` summed over array elements, one extra per element. -/
def jsizeList : List Json → Nat
  | [] => 0
  | x :: xs => 1 + jsize x + jsizeList xs
/-- `jsize` summed over object members, one extra per member. -/
def jsizeMembers : List (String × Json) → Nat
  | [] => 0
  | (_, v) :: ms => 1 + jsize v + jsizeMembers ms
end

/-- A remainder that cannot extend a rendered number: empty, or starting
with none of digit, `.`, `e`, `E`. After a serialized value the remainder
starts with `,`, `]`, `}` or ends, so this always holds there. -/
def numDelimOk : List Char → Bool
  | [] => true
  | c :: _ => !(isDigitC c || c = '.' || c = 'e' || c = 'E')

/-- Some resolver token starts exactly here. -/
def anyTokenPrefix (l : List Char) : Bool :=
  tokRefNum.isPrefixOf l || tokRefPre.isPrefixOf l ||
    tokExpiration.isPrefixOf l || tokSigner.isPrefixOf l

/-- No resolver token starts at any position of `l`. -/
def tokenFree : List Char → Bool
  | [] => true
  | c :: r => !anyTokenPrefix (c :: r) && tokenFree r

/-- Some callback template token starts exactly here. -/
def anyCbTokenPrefix (l : List Char) : Bool :=
  cbTokSig.isPrefixOf l || cbTokId.isPrefixOf l ||
    cbTokBlock.isPrefixOf l || cbTokTxn.isPrefixOf l

/-- No callback template token starts at any position of `l`. -/
def cbTokenFree : List Char → Bool
  | [] => true
  | c :: r => !anyCbTokenPrefix (c :: r) && cbTokenFree r

/-- Characters that leave a path segment intact through URL parsing and
path splitting: anything but `/`, `?`, `#`. -/
def isSegSafe (c : Char) : Bool := !(c = '/' || c = '?' || c = '#')

/-! # Lemmas

First the Base64u codec, then the JSON codec, the urlencoded codec, the URL
parser, and finally the claim theorems.
-/

/-- Each base64 digit is in the alphabet, is not `=` or whitespace, decodes
to its value, and survives the URL-safe substitution round trip. -/
theorem b64Chr_spec : ∀ n < 64, isB64Char (b64Chr n) = true ∧ b64Val (b64Chr n) = n ∧
    b64Chr n ≠ '=' ∧ isAsciiWs (b64Chr n) = false ∧
    b64uUnsubst (b64uSubst (b64Chr n)) = b64Chr n := by decide

/-- `b64EncBody` is the padded form of the 6-bit groups. -/
theorem b64EncBody_eq : ∀ bs : List Nat,
    b64EncBody bs = (b64Sextets bs).map b64Chr ++ List.replicate (b64PadN bs) '='
  | [] => by simp [b64EncBody, b64Sextets, b64PadN]
  | [a] => by simp [b64EncBody, b64Sextets, b64PadN, List.replicate]
  | [a, b] => by simp [b64EncBody, b64Sextets, b64PadN, List.replicate]
  | a :: b :: c :: r => by
      simp only [b64EncBody, b64Sextets, b64PadN, List.map_cons, List.cons_append]
      rw [b64EncBody_eq r]

/-- The 6-bit groups of a byte list are below 64. -/
theorem b64Sextets_lt : ∀ bs : List Nat, (∀ x ∈ bs, x < 256) →
    ∀ y ∈ b64Sextets bs, y < 64
  | [], _ => by simp [b64Sextets]
  | [a], h => by
      have ha := h a (by simp)
      simp only [b64Sextets, List.mem_cons, List.not_mem_nil, or_false]
      rintro y (rfl | rfl) <;> omega
  | [a, b], h => by
      have ha := h a (by simp)
      have hb := h b (by simp)
      simp only [b64Sextets, List.mem_cons, List.not_mem_nil, or_false]
      rintro y (rfl | rfl | rfl) <;> omega
  | a :: b :: c :: r, h => by
      have ha := h a (by simp)
      have hb := h b (by simp)
      have hc := h c (by simp)
      have ih := b64Sextets_lt r (fun x hx => h x (by simp [hx]))
      simp only [b64Sextets, List.mem_cons]
      rintro y (rfl | rfl | rfl | rfl | hy)
      · omega
      · omega
      · omega
      · omega
      · exact ih y hy

/-- Group count plus pad count is a multiple of four. -/
theorem b64_len_pad : ∀ bs : List Nat, ((b64Sextets bs).length + b64PadN bs) % 4 = 0
  | [] => by simp [b64Sextets, b64PadN]
  | [a] => by simp [b64Sextets, b64PadN]
  | [a, b] => by simp [b64Sextets, b64PadN]
  | a :: b :: c :: r => by
      have ih := b64_len_pad r
      simp only [b64Sextets, b64PadN, List.length_cons]
      omega

/-- At most two pad characters. -/
theorem b64PadN_le : ∀ bs : List Nat, b64PadN bs ≤ 2
  | [] => by simp [b64PadN]
  | [a] => by simp [b64PadN]
  | [a, b] => by simp [b64PadN]
  | _ :: _ :: _ :: r => b64PadN_le r

/-- The group count is never `1 mod 4`. -/
theorem b64Sextets_len_mod : ∀ bs : List Nat, (b64Sextets bs).length % 4 ≠ 1
  | [] => by simp [b64Sextets]
  | [a] => by simp [b64Sextets]
  | [a, b] => by simp [b64Sextets]
  | a :: b :: c :: r => by
      have ih := b64_len_pad r
      have hle := b64PadN_le r
      simp only [b64Sextets, List.length_cons]
      omega

/-- Decoding the 6-bit groups of a byte list recovers the bytes. -/
theorem b64DecBody_sextets : ∀ bs : List Nat, (∀ x ∈ bs, x < 256) →
    b64DecBody (b64Sextets bs) = some bs
  | [], _ => by simp [b64Sextets, b64DecBody]
  | [a], h => by
      have ha := h a (by simp)
      simp only [b64Sextets, b64DecBody, Option.some.injEq, List.cons.injEq, and_true]
      omega
  | [a, b], h => by
      have ha := h a (by simp)
      have hb := h b (by simp)
      simp only [b64Sextets, b64DecBody, Option.some.injEq, List.cons.injEq, and_true]
      constructor
      · omega
      · omega
  | a :: b :: c :: r, h => by
      have ha := h a (by simp)
      have hb := h b (by simp)
      have hc := h c (by simp)
      have ih := b64DecBody_sextets r (fun x hx => h x (by simp [hx]))
      simp only [b64Sextets, b64DecBody, ih, Option.map_some', Option.some.injEq,
        List.cons.injEq]
      refine ⟨by omega, by omega, by omega, trivial⟩

/-- Characters of an encoded body are base64 digits or `=`. -/
theorem b64EncBody_chars (bs : List Nat) (h : ∀ x ∈ bs, x < 256) :
    ∀ c ∈ b64EncBody bs, (isB64Char c = true ∧ isAsciiWs c = false ∧
      b64uUnsubst (b64uSubst c) = c) ∨ c = '=' := by
  intro c hc
  rw [b64EncBody_eq] at hc
  rcases List.mem_append.mp hc with hm | hp
  · rcases List.mem_map.mp hm with ⟨y, hy, rfl⟩
    have hy64 := b64Sextets_lt bs h y hy
    have := b64Chr_spec y hy64
    exact Or.inl ⟨this.1, this.2.2.2.1, this.2.2.2.2⟩
  · exact Or.inr (List.eq_of_mem_replicate hp)

/-- `atob` inverts `b64EncBody` on byte input. -/
theorem atob_encBody (bs : List Nat) (h : ∀ x ∈ bs, x < 256) :
    atob (b64EncBody bs) = some (bs.map Char.ofNat) := by
  have hchars := b64EncBody_chars bs h
  have henc := b64EncBody_eq bs
  have hsex := b64Sextets_lt bs h
  have hple := b64PadN_le bs
  -- no character of the encoding is whitespace
  have hws : ∀ c ∈ b64EncBody bs, (!isAsciiWs c) = true := by
    intro c hc
    rcases hchars c hc with ⟨_, hw, _⟩ | rfl
    · simp [hw]
    · decide
  have hfilter : (b64EncBody bs).filter (fun c => !isAsciiWs c) = b64EncBody bs :=
    List.filter_eq_self.mpr hws
  -- digit characters of the body are never `=`
  have hne : ∀ c ∈ (b64Sextets bs).map b64Chr, c ≠ '=' := by
    intro c hc
    rcases List.mem_map.mp hc with ⟨y, hy, rfl⟩
    exact (b64Chr_spec y (hsex y hy)).2.2.1
  -- total length is a multiple of four
  have hlen : (b64EncBody bs).length % 4 = 0 := by
    rw [henc]
    simp only [List.length_append, List.length_map, List.length_replicate]
    exact b64_len_pad bs
  -- the trailing `=` run has exactly the pad length
  have htwnil : ((b64Sextets bs).map b64Chr).reverse.takeWhile (fun c => c = '=') = [] := by
    cases hm : ((b64Sextets bs).map b64Chr).reverse with
    | nil => simp
    | cons x xs =>
        have hx : x ≠ '=' := by
          refine hne x ?_
          have : x ∈ ((b64Sextets bs).map b64Chr).reverse := by simp [hm]
          simpa using this
        simp [List.takeWhile_cons, hx]
  have htw : ((b64EncBody bs).reverse.takeWhile (fun c => c = '=')).length = b64PadN bs := by
    rw [henc, List.reverse_append, List.reverse_replicate]
    have : ∀ n, (List.replicate n '=' ++ ((b64Sextets bs).map b64Chr).reverse).takeWhile
        (fun c => c = '=') = List.replicate n '=' := by
      intro n
      induction n with
      | zero => simpa using htwnil
      | succ k ih => simpa [List.replicate_succ, List.takeWhile_cons] using ih
    rw [this]
    simp
  have hlens : (b64EncBody bs).length =
      ((b64Sextets bs).map b64Chr).length + b64PadN bs := by
    rw [henc]
    simp
  -- the strip recovers the digit part
  have htake : (b64EncBody bs).take ((b64EncBody bs).length - b64PadN bs)
      = (b64Sextets bs).map b64Chr := by
    rw [hlens, henc, Nat.add_sub_cancel, List.take_left]
  have hmod1 : ¬ ((b64Sextets bs).map b64Chr).length % 4 = 1 := by
    simpa using b64Sextets_len_mod bs
  have hall : ((b64Sextets bs).map b64Chr).all isB64Char = true := by
    rw [List.all_eq_true]
    intro c hc
    rcases List.mem_map.mp hc with ⟨y, hy, rfl⟩
    exact (b64Chr_spec y (hsex y hy)).1
  have hvals : ((b64Sextets bs).map b64Chr).map b64Val = b64Sextets bs := by
    rw [List.map_map]
    have : ∀ y ∈ b64Sextets bs, (b64Val ∘ b64Chr) y = id y := by
      intro y hy
      exact (b64Chr_spec y (hsex y hy)).2.1
    rw [List.map_congr_left this, List.map_id]
  simp only [atob, hfilter, if_pos hlen, htw, Nat.min_eq_left hple, htake, hmod1,
    if_false, hall, if_true, hvals, b64DecBody_sextets bs h, Option.map_some']

/-- Each character of a `btoa` body survives the URL-safe substitution
round trip. -/
theorem b64u_subst_roundtrip (bs : List Nat) (h : ∀ x ∈ bs, x < 256) :
    (b64EncBody bs).map (fun c => b64uUnsubst (b64uSubst c)) = b64EncBody bs := by
  apply List.map_congr_left ?_ |>.trans (List.map_id _)
  intro c hc
  rcases b64EncBody_chars bs h c hc with ⟨_, _, hr⟩ | rfl
  · exact hr
  · decide

/-- Base64u decoding undoes Base64u encoding: whatever `b64uEnc` produces,
`b64uDec` maps back to the original byte string. -/
theorem b64uDec_b64uEnc {s e : List Char} (he : b64uEnc s = some e) : b64uDec e = some s := by
  have hlat : s.all (fun c => c.toNat < 256) = true := by
    by_contra hcon
    simp [b64uEnc, btoa, hcon] at he
  have hb : ∀ x ∈ s.map Char.toNat, x < 256 := by
    intro x hx
    rcases List.mem_map.mp hx with ⟨c, hc, rfl⟩
    simpa using List.all_eq_true.mp hlat c hc
  have he2 : e = (b64EncBody (s.map Char.toNat)).map b64uSubst := by
    simp [b64uEnc, btoa, hlat] at he
    exact he.symm
  subst he2
  rw [b64uDec, List.map_map]
  have : (b64EncBody (s.map Char.toNat)).map (b64uUnsubst ∘ b64uSubst)
      = b64EncBody (s.map Char.toNat) := b64u_subst_roundtrip _ hb
  rw [this, atob_encBody _ hb, List.map_map]
  congr 1
  apply List.map_congr_left ?_ |>.trans (List.map_id _)
  intro c _
  exact Char.ofNat_toNat c

/-! ## JSON codec lemmas: numbers -/

/-- Characters constructed from codes below `0xD800` keep their code. -/
theorem toNat_ofNat_lt {n : Nat} (h : n < 0xD800) : (Char.ofNat n).toNat = n := by
  have hv : n.isValidChar := Or.inl h
  simp only [Char.ofNat, hv, dif_pos, Char.ofNatAux, Char.toNat]
  rfl

/-- Every character of `natChars n` is a decimal digit. -/
theorem natChars_digits (n : Nat) : ∀ c ∈ natChars n, isDigitC c = true := by
  intro c hc
  rw [natChars] at hc
  split at hc
  · simp at hc
    subst hc
    decide
  · rcases List.mem_map.mp hc with ⟨d, hd, rfl⟩
    have hd10 : d < 10 := Nat.digits_lt_base (by norm_num) (List.mem_reverse.mp hd)
    have ht : (Char.ofNat (48 + d)).toNat = 48 + d := toNat_ofNat_lt (by omega)
    simp [isDigitC, ht]
    omega

/-- `natChars` is never empty. -/
theorem natChars_ne_nil (n : Nat) : natChars n ≠ [] := by
  rw [natChars]
  split
  · simp
  · rename_i h
    have : Nat.digits 10 n ≠ [] := Nat.digits_ne_nil_iff_ne_zero.mpr h
    simp [this]

/-- Folding decimal characters of a digit list (most significant first)
computes its value over any accumulator. -/
theorem foldl_digit_chars : ∀ L : List Nat, (∀ d ∈ L, d < 10) → ∀ acc : Nat,
    List.foldl (fun a c => a * 10 + (c.toNat - 48)) acc
      (L.reverse.map (fun d => Char.ofNat (48 + d)))
      = acc * 10 ^ L.length + Nat.ofDigits 10 L
  | [], _ => by simp
  | d :: L, h => by
      intro acc
      have hd10 : d < 10 := h d (by simp)
      have ih := foldl_digit_chars L (fun x hx => h x (by simp [hx]))
      have ht : (Char.ofNat (48 + d)).toNat = 48 + d := toNat_ofNat_lt (by omega)
      simp only [List.reverse_cons, List.map_append, List.map_cons, List.map_nil,
        List.foldl_append, List.foldl_cons, List.foldl_nil, ih acc, ht,
        Nat.ofDigits_cons, List.length_cons]
      ring_nf
      omega

/-- `digitsVal` inverts `natChars`. -/
theorem digitsVal_natChars (n : Nat) : digitsVal (natChars n) = n := by
  rw [natChars, digitsVal]
  split
  · rename_i h
    subst h
    decide
  · rename_i h
    have := foldl_digit_chars (Nat.digits 10 n)
      (fun d hd => Nat.digits_lt_base (by norm_num) hd) 0
    simpa [Nat.ofDigits_digits] using this

/-- For nonzero `n`, `natChars n` starts with a nonzero digit. -/
theorem natChars_head_ne_zero (n : Nat) (h : n ≠ 0) :
    ∀ d ds, natChars n = d :: ds → d ≠ '0' := by
  intro d ds hd
  have hnil : Nat.digits 10 n ≠ [] := Nat.digits_ne_nil_iff_ne_zero.mpr h
  rw [natChars, if_neg h] at hd
  have hlast := Nat.getLast_digit_ne_zero 10 h
  intro rfl0
  subst rfl0
  have hhead : ((Nat.digits 10 n).reverse.map (fun d => Char.ofNat (48 + d))).head? =
      some '0' := by rw [hd]; rfl
  rw [List.head?_map, List.head?_reverse] at hhead
  have : (Nat.digits 10 n).getLast? = some ((Nat.digits 10 n).getLast hnil) :=
    List.getLast?_eq_getLast _ hnil
  rw [this] at hhead
  simp only [Option.map_some', Option.some.injEq] at hhead
  have hlt : (Nat.digits 10 n).getLast hnil < 10 :=
    Nat.digits_lt_base (by norm_num) (List.getLast_mem hnil)
  have := congrArg Char.toNat hhead
  rw [toNat_ofNat_lt (by omega)] at this
  have h0 : ('0').toNat = 48 := by decide
  rw [h0] at this
  omega

/-- `takeDigitsL` stops immediately at a non-digit head. -/
theorem takeDigitsL_stop : ∀ l : List Char,
    (l = [] ∨ ∃ c r, l = c :: r ∧ isDigitC c = false) → takeDigitsL l = ([], l) := by
  intro l h
  rcases h with rfl | ⟨c, r, rfl, hc⟩
  · rfl
  · simp [takeDigitsL, hc]

/-- `takeDigitsL` consumes exactly a digit run. -/
theorem takeDigitsL_append : ∀ ds : List Char, (∀ c ∈ ds, isDigitC c = true) →
    ∀ rest : List Char, takeDigitsL rest = ([], rest) →
    takeDigitsL (ds ++ rest) = (ds, rest)
  | [], _ => by intro rest h; simpa using h
  | c :: ds, h => by
      intro rest hrest
      have hc : isDigitC c = true := h c (by simp)
      have ih := takeDigitsL_append ds (fun x hx => h x (by simp [hx])) rest hrest
      simp [takeDigitsL, hc, ih]

/-- A digit is none of the characters the grammar treats specially. -/
theorem digit_facts {c : Char} (h : isDigitC c = true) :
    c ≠ '-' ∧ c ≠ '.' ∧ c ≠ 'e' ∧ c ≠ 'E' ∧ c ≠ '+' ∧ isJWs c = false ∧
      c ≠ ']' ∧ c ≠ '\x7d' ∧ c ≠ ',' ∧ c ≠ 'n' ∧ c ≠ 't' ∧ c ≠ 'f' ∧ c ≠ '"' ∧
      c ≠ '[' ∧ c ≠ '\x7b' ∧ c ≠ ':' := by
  simp only [isDigitC, Bool.and_eq_true, decide_eq_true_eq] at h
  refine ⟨?_, ?_, ?_, ?_, ?_, ?_, ?_, ?_, ?_, ?_, ?_, ?_, ?_, ?_, ?_, ?_⟩
  all_goals first
    | (intro he; rw [he] at h; exact absurd h (by decide))
    | (simp only [isJWs]
       have h1 : c.toNat ≠ 32 := by omega
       have h2 : c.toNat ≠ 9 := by omega
       have h3 : c.toNat ≠ 10 := by omega
       have h4 : c.toNat ≠ 13 := by omega
       simp [h1, h2, h3, h4])

/-- The delimiter condition rules out digit, dot and exponent heads. -/
theorem numDelimOk_facts : ∀ {l : List Char}, numDelimOk l = true →
    takeDigitsL l = ([], l) ∧
      (l = [] ∨ ∃ c r, l = c :: r ∧ isDigitC c = false ∧ c ≠ '.' ∧ c ≠ 'e' ∧ c ≠ 'E') := by
  intro l h
  cases l with
  | nil => exact ⟨rfl, Or.inl rfl⟩
  | cons c r =>
      simp only [numDelimOk, Bool.not_eq_true', Bool.or_eq_false_iff,
        decide_eq_false_iff_not] at h
      obtain ⟨⟨⟨h1, h2⟩, h3⟩, h4⟩ := h
      exact ⟨takeDigitsL_stop _ (Or.inr ⟨c, r, rfl, h1⟩),
        Or.inr ⟨c, r, rfl, h1, h2, h3, h4⟩⟩

/-- No fraction where the head is not a dot. -/
theorem parseFrac_delim {l : List Char}
    (h : l = [] ∨ ∃ c r, l = c :: r ∧ c ≠ '.') : parseFrac l = some ([], l) := by
  rcases h with rfl | ⟨c, r, rfl, hc⟩
  · rfl
  · simp [parseFrac, hc]

/-- No exponent where the head is not `e`/`E`. -/
theorem parseExp_delim {l : List Char}
    (h : l = [] ∨ ∃ c r, l = c :: r ∧ c ≠ 'e' ∧ c ≠ 'E') :
    parseExp l = some (false, [], l) := by
  rcases h with rfl | ⟨c, r, rfl, hce, hcE⟩
  · rfl
  · have : ¬(c = 'e' ∨ c = 'E') := by
      rintro (rfl | rfl)
      · exact hce rfl
      · exact hcE rfl
    simp [parseExp, this]

/-- With no fraction and no exponent, `mkJNum` yields the signed integer. -/
theorem mkJNum_plain (neg : Bool) (ids : List Char) (l4 : List Char) :
    mkJNum neg ids [] [] false l4
      = some ((if neg then -(digitsVal ids : Int) else (digitsVal ids : Int)), l4) := by
  simp [mkJNum, digitsVal]

/-- `parseJNumTail` recovers a rendered digit run. -/
theorem parseJNumTail_digits (neg : Bool) (d : Char) (ds rest : List Char)
    (hd : isDigitC d = true) (hds : ∀ c ∈ ds, isDigitC c = true)
    (hlead : d = '0' → ds = []) (hr : numDelimOk rest = true) :
    parseJNumTail neg (d :: (ds ++ rest))
      = some ((if neg then -(digitsVal (d :: ds) : Int) else (digitsVal (d :: ds) : Int)),
          rest) := by
  obtain ⟨hstop, hshape⟩ := numDelimOk_facts hr
  have htd : takeDigitsL (d :: (ds ++ rest)) = (d :: ds, rest) := by
    have := takeDigitsL_append (d :: ds) (by
      intro c hc
      rcases List.mem_cons.mp hc with rfl | hc2
      · exact hd
      · exact hds c hc2) rest hstop
    simpa using this
  have hfr : parseFrac rest = some ([], rest) := by
    apply parseFrac_delim
    rcases hshape with rfl | ⟨c, r, rfl, _, hdot, _, _⟩
    · exact Or.inl rfl
    · exact Or.inr ⟨c, r, rfl, hdot⟩
  have hex : parseExp rest = some (false, [], rest) := by
    apply parseExp_delim
    rcases hshape with rfl | ⟨c, r, rfl, _, _, he, hE⟩
    · exact Or.inl rfl
    · exact Or.inr ⟨c, r, rfl, he, hE⟩
  rw [parseJNumTail, htd]
  simp only [hfr, hex]
  rw [if_neg (by rintro ⟨rfl, hne⟩; exact hne (hlead rfl)), mkJNum_plain]

/-- `parseJNum` inverts `intChars` whenever the remainder cannot extend the
number. -/
theorem parseJNum_intChars (i : Int) (rest : List Char) (hr : numDelimOk rest = true) :
    parseJNum (intChars i ++ rest) = some (i, rest) := by
  by_cases hneg : i < 0
  · rw [intChars, if_pos hneg, List.cons_append, parseJNum]
    rw [if_pos rfl]
    cases hn : natChars i.natAbs with
    | nil => exact absurd hn (natChars_ne_nil _)
    | cons d ds =>
        have hd : isDigitC d = true := natChars_digits _ d (by rw [hn]; simp)
        have hds : ∀ c ∈ ds, isDigitC c = true := by
          intro c hc
          exact natChars_digits _ c (by rw [hn]; simp [hc])
        have hlead : d = '0' → ds = [] := by
          intro h0
          have habs : i.natAbs ≠ 0 := by omega
          exact absurd h0 (natChars_head_ne_zero _ habs d ds hn)
        rw [List.cons_append, parseJNumTail_digits true d ds rest hd hds hlead hr]
        have hvd : digitsVal (d :: ds) = i.natAbs := by
          rw [← hn, digitsVal_natChars]
        rw [hvd]
        simp only [if_true]
        congr 1
        congr 1
        omega
  · rw [intChars, if_neg hneg]
    cases hn : natChars i.natAbs with
    | nil => exact absurd hn (natChars_ne_nil _)
    | cons d ds =>
        have hd : isDigitC d = true := natChars_digits _ d (by rw [hn]; simp)
        have hds : ∀ c ∈ ds, isDigitC c = true := by
          intro c hc
          exact natChars_digits _ c (by rw [hn]; simp [hc])
        have hlead : d = '0' → ds = [] := by
          intro h0
          by_cases habs : i.natAbs = 0
          · have h01 : natChars i.natAbs = ['0'] := by rw [habs]; rfl
            rw [h01] at hn
            injection hn with h1 h2
            exact h2.symm
          · exact absurd h0 (natChars_head_ne_zero _ habs d ds hn)
        have hdm : d ≠ '-' := (digit_facts hd).1
        rw [List.cons_append, parseJNum, if_neg hdm,
          parseJNumTail_digits false d ds rest hd hds hlead hr]
        have hvd : digitsVal (d :: ds) = i.natAbs := by
          rw [← hn, digitsVal_natChars]
        rw [hvd]
        simp only [Bool.false_eq_true, if_false]
        congr 2
        omega

/-! ## JSON codec lemmas: strings -/

/-- Lowercase hex digits decode to their value. -/
theorem hexValC_lower : ∀ n < 16, hexValC (hexDigitLower n) = some n := by decide

/-- Parsing one escaped character undoes the escaping. -/
theorem parseJStrBody_esc (c : Char) (acc rest : List Char) :
    parseJStrBody acc (escChar c ++ rest) = parseJStrBody (c :: acc) rest := by
  rw [escChar]
  split_ifs with h1 h2 h3 h4 h5 h6 h7 h8
  · subst h1
    simp [parseJStrBody, unescChar]
  · subst h2
    simp [parseJStrBody, unescChar]
  · have hc : c = Char.ofNat 8 := by
      rw [← h3, Char.ofNat_toNat]
    simp [parseJStrBody, unescChar, hc]
  · have hc : c = Char.ofNat 9 := by
      rw [← h4, Char.ofNat_toNat]
    simp [parseJStrBody, unescChar, hc]
  · have hc : c = Char.ofNat 10 := by
      rw [← h5, Char.ofNat_toNat]
    simp [parseJStrBody, unescChar, hc]
  · have hc : c = Char.ofNat 12 := by
      rw [← h6, Char.ofNat_toNat]
    simp [parseJStrBody, unescChar, hc]
  · have hc : c = Char.ofNat 13 := by
      rw [← h7, Char.ofNat_toNat]
    simp [parseJStrBody, unescChar, hc]
  · have hx1 : hexValC (hexDigitLower (c.toNat / 16)) = some (c.toNat / 16) :=
      hexValC_lower _ (by omega)
    have hx2 : hexValC (hexDigitLower (c.toNat % 16)) = some (c.toNat % 16) :=
      hexValC_lower _ (by omega)
    have h0 : hexValC '0' = some 0 := by decide
    have harith : ((0 * 16 + 0) * 16 + c.toNat / 16) * 16 + c.toNat % 16 = c.toNat := by omega
    have hvalid : (c.toNat).isValidChar := Or.inl (by omega)
    simp only [List.cons_append, List.nil_append, parseJStrBody, if_pos rfl,
      reduceIte, h0, hx1, hx2, harith, hvalid, if_true, Char.ofNat_toNat]
    simp
  · -- verbatim character: none of the escape classes apply
    have hge : ¬ c.toNat < 32 := h8
    conv_lhs => rw [parseJStrBody.eq_def]
    simp [h1, h2, hge]

/-- Parsing an escaped body stops exactly at the closing quote. -/
theorem parseJStrBody_escBody : ∀ l : List Char, ∀ acc rest : List Char,
    parseJStrBody acc ((l.map escChar).flatten ++ '"' :: rest)
      = some (String.mk (acc.reverse ++ l), rest)
  | [] => by
      intro acc rest
      rw [parseJStrBody.eq_def]
      simp
  | c :: l => by
      intro acc rest
      have ih := parseJStrBody_escBody l (c :: acc) rest
      simp only [List.map_cons, List.flatten_cons, List.append_assoc]
      rw [parseJStrBody_esc, ih]
      simp

/-- Parsing the tail of a string literal recovers the string. -/
theorem parseJStrBody_strLit (s : String) (rest : List Char) :
    parseJStrBody [] ((s.data.map escChar).flatten ++ '"' :: rest) = some (s, rest) := by
  rw [parseJStrBody_escBody]
  simp

/-! ## JSON codec lemmas: values -/

/-- `skipJWs` does nothing when the head is not whitespace. -/
theorem skipJWs_cons {c : Char} (h : isJWs c = false) (t : List Char) :
    skipJWs (c :: t) = c :: t := by
  simp [skipJWs, h]

/-- Every value has positive size. -/
theorem jsize_pos : ∀ v : Json, 1 ≤ jsize v
  | .null => le_refl _
  | .bool _ => le_refl _
  | .num _ => le_refl _
  | .str _ => le_refl _
  | .arr _ => by rw [jsize]; omega
  | .obj _ => by rw [jsize]; omega

/-- A rendered integer starts with a minus sign or a digit, so with none of
the characters the value parser dispatches on. -/
theorem intChars_head (i : Int) : ∃ c t, intChars i = c :: t ∧ isJWs c = false ∧
    c ≠ 'n' ∧ c ≠ 't' ∧ c ≠ 'f' ∧ c ≠ '"' ∧ c ≠ '[' ∧ c ≠ '\x7b' ∧ c ≠ ']' := by
  by_cases hneg : i < 0
  · exact ⟨'-', _, by rw [intChars, if_pos hneg], by decide, by decide, by decide,
      by decide, by decide, by decide, by decide, by decide⟩
  · cases hn : natChars i.natAbs with
    | nil => exact absurd hn (natChars_ne_nil _)
    | cons d ds =>
        have hd : isDigitC d = true := natChars_digits _ d (by rw [hn]; simp)
        obtain ⟨_, _, _, _, _, hws, hbr, _, _, hnn, hnt, hnf, hnq, hob, hcb, _⟩ :=
          digit_facts hd
        exact ⟨d, ds, by rw [intChars, if_neg hneg, hn], hws, hnn, hnt, hnf, hnq, hob,
          hcb, hbr⟩

/-- Every rendered value starts with a character that is neither whitespace
nor a closing bracket. -/
theorem jser_head (v : Json) : ∃ c t, jser v = c :: t ∧ isJWs c = false ∧ c ≠ ']' := by
  cases v with
  | null => exact ⟨'n', _, rfl, by decide, by decide⟩
  | bool b => cases b with
      | true => exact ⟨'t', _, rfl, by decide, by decide⟩
      | false => exact ⟨'f', _, rfl, by decide, by decide⟩
  | num n =>
      obtain ⟨c, t, he, hws, _, _, _, _, _, _, hbr⟩ := intChars_head n
      exact ⟨c, t, by rw [jser]; exact he, hws, hbr⟩
  | str s => exact ⟨'"', _, rfl, by decide, by decide⟩
  | arr xs => exact ⟨'[', _, rfl, by decide, by decide⟩
  | obj ms => exact ⟨'\x7b', _, rfl, by decide, by decide⟩

/-- The serialization of a nonempty element list starts with its head's. -/
theorem jserItems_cons (x : Json) (xs : List Json) :
    ∃ T, jserItems (x :: xs) = jser x ++ T := by
  cases xs with
  | nil => exact ⟨[], by simp [jserItems]⟩
  | cons y ys => exact ⟨',' :: jserItems (y :: ys), by simp [jserItems]⟩

/-- The serialization of a nonempty member list starts with a quote. -/
theorem jserMembers_cons (k : String) (v : Json) (ms : List (String × Json)) :
    ∃ T, jserMembers ((k, v) :: ms) = '"' :: T := by
  cases ms with
  | nil => exact ⟨(k.data.map escChar).flatten ++ ['"'] ++ ':' :: jser v, by
      simp [jserMembers, strLit]⟩
  | cons m ms2 => exact ⟨(k.data.map escChar).flatten ++ ['"'] ++ ':' ::
      (jser v ++ ',' :: jserMembers (m :: ms2)), by
      cases m with
      | mk k2 v2 => simp [jserMembers, strLit]⟩

mutual
/-- Parsing a rendered value recovers it, given fuel at least its size and a
remainder that cannot extend a number. -/
theorem parse_jser_val : ∀ (v : Json) (fuel : Nat) (rest : List Char),
    jsize v ≤ fuel → numDelimOk rest = true →
    parseJVal fuel (jser v ++ rest) = some (v, rest)
  | .null, fuel, rest, hf, _ => by
      obtain ⟨f, rfl⟩ : ∃ f, fuel = f + 1 :=
        ⟨fuel - 1, by have := jsize_pos Json.null; omega⟩
      rw [jser]
      simp only [List.cons_append, List.nil_append, parseJVal,
        skipJWs_cons (by decide : isJWs 'n' = false)]
      simp
  | .bool true, fuel, rest, hf, _ => by
      obtain ⟨f, rfl⟩ : ∃ f, fuel = f + 1 :=
        ⟨fuel - 1, by have := jsize_pos (Json.bool true); omega⟩
      rw [jser]
      simp only [List.cons_append, List.nil_append, parseJVal,
        skipJWs_cons (by decide : isJWs 't' = false)]
      simp
  | .bool false, fuel, rest, hf, _ => by
      obtain ⟨f, rfl⟩ : ∃ f, fuel = f + 1 :=
        ⟨fuel - 1, by have := jsize_pos (Json.bool false); omega⟩
      rw [jser]
      simp only [List.cons_append, List.nil_append, parseJVal,
        skipJWs_cons (by decide : isJWs 'f' = false)]
      simp
  | .num n, fuel, rest, hf, hr => by
      obtain ⟨f, rfl⟩ : ∃ f, fuel = f + 1 :=
        ⟨fuel - 1, by have := jsize_pos (Json.num n); omega⟩
      obtain ⟨c0, t0, he, hws, hnn, hnt, hnf, hnq, hob, hcb, _⟩ := intChars_head n
      rw [jser, he, List.cons_append]
      simp only [parseJVal, skipJWs_cons hws, hnn, hnt, hnf, hnq, hob, hcb, if_false]
      rw [← List.cons_append, ← he, parseJNum_intChars n rest hr]
      rfl
  | .str s, fuel, rest, hf, _ => by
      obtain ⟨f, rfl⟩ : ∃ f, fuel = f + 1 :=
        ⟨fuel - 1, by have := jsize_pos (Json.str s); omega⟩
      rw [jser, strLit]
      simp only [List.cons_append, List.append_assoc, List.singleton_append, parseJVal,
        skipJWs_cons (by decide : isJWs '"' = false)]
      simp only [List.nil_append]
      rw [parseJStrBody_strLit]
      simp
  | .arr [], fuel, rest, hf, _ => by
      obtain ⟨f, rfl⟩ : ∃ f, fuel = f + 1 :=
        ⟨fuel - 1, by have := jsize_pos (Json.arr []); omega⟩
      rw [jser, jserItems]
      simp only [List.nil_append, List.cons_append, parseJVal,
        skipJWs_cons (by decide : isJWs '[' = false)]
      simp [skipJWs_cons (by decide : isJWs ']' = false)]
  | .arr (x :: xs), fuel, rest, hf, _ => by
      rw [jsize] at hf
      have hpos : 1 ≤ jsizeList (x :: xs) := by
        rw [jsizeList]
        omega
      obtain ⟨f, rfl⟩ : ∃ f, fuel = f + 1 := ⟨fuel - 1, by omega⟩
      have key := parse_jser_items x xs f rest (by omega)
      obtain ⟨T, hT⟩ := jserItems_cons x xs
      obtain ⟨c0, t0, he, hws, hbr⟩ := jser_head x
      rw [jser]
      simp only [List.cons_append, List.append_assoc, List.singleton_append, parseJVal,
        skipJWs_cons (by decide : isJWs '[' = false)]
      simp only [List.nil_append, reduceIte, Char.reduceEq]
      rw [show jserItems (x :: xs) ++ ']' :: rest = c0 :: (t0 ++ T ++ ']' :: rest) from by
        rw [hT, he]
        simp]
      simp only [skipJWs_cons hws, hbr, if_false]
      rw [show (c0 :: (t0 ++ T ++ ']' :: rest) : List Char)
          = jserItems (x :: xs) ++ ']' :: rest from by
        rw [hT, he]
        simp]
      simp [key]
  | .obj [], fuel, rest, hf, _ => by
      obtain ⟨f, rfl⟩ : ∃ f, fuel = f + 1 :=
        ⟨fuel - 1, by have := jsize_pos (Json.obj []); omega⟩
      rw [jser, jserMembers]
      simp only [List.nil_append, List.cons_append, parseJVal,
        skipJWs_cons (by decide : isJWs '\x7b' = false)]
      simp [skipJWs_cons (by decide : isJWs '\x7d' = false)]
  | .obj ((k, v) :: ms), fuel, rest, hf, _ => by
      rw [jsize] at hf
      have hpos : 1 ≤ jsizeMembers ((k, v) :: ms) := by
        rw [jsizeMembers]
        omega
      obtain ⟨f, rfl⟩ : ∃ f, fuel = f + 1 := ⟨fuel - 1, by omega⟩
      have key := parse_jser_members k v ms f rest (by omega)
      obtain ⟨T, hT⟩ := jserMembers_cons k v ms
      rw [jser]
      simp only [List.cons_append, List.append_assoc, List.singleton_append, parseJVal,
        skipJWs_cons (by decide : isJWs '\x7b' = false)]
      simp only [List.nil_append, reduceIte, Char.reduceEq]
      rw [show jserMembers ((k, v) :: ms) ++ '\x7d' :: rest
          = '"' :: (T ++ '\x7d' :: rest) from by
        rw [hT]
        simp]
      simp only [skipJWs_cons (by decide : isJWs '"' = false)]
      rw [show ('"' :: (T ++ '\x7d' :: rest) : List Char)
          = jserMembers ((k, v) :: ms) ++ '\x7d' :: rest from by
        rw [hT]
        simp]
      simp [key]
  termination_by v _ _ _ _ => sizeOf v
/-- Parsing rendered array elements recovers them. -/
theorem parse_jser_items : ∀ (x : Json) (xs : List Json) (fuel : Nat) (rest : List Char),
    jsizeList (x :: xs) ≤ fuel →
    parseJItems fuel (jserItems (x :: xs) ++ ']' :: rest) = some (x :: xs, rest)
  | x, xs, fuel, rest, hf => by
      have hx1 : 1 ≤ jsize x := jsize_pos x
      rw [jsizeList] at hf
      obtain ⟨f, rfl⟩ : ∃ f, fuel = f + 1 := ⟨fuel - 1, by omega⟩
      cases xs with
      | nil =>
          have hv := parse_jser_val x f (']' :: rest) (by omega) (by rfl)
          simp only [jserItems, parseJItems, hv]
          simp [skipJWs_cons (by decide : isJWs ']' = false)]
      | cons y ys =>
          rw [jsizeList] at hf
          have hy1 : 1 ≤ jsize y := jsize_pos y
          have hv := parse_jser_val x f (',' :: (jserItems (y :: ys) ++ ']' :: rest))
            (by omega) (by rfl)
          have key := parse_jser_items y ys f rest (by rw [jsizeList]; omega)
          rw [show jserItems (x :: y :: ys) ++ ']' :: rest
              = jser x ++ ',' :: (jserItems (y :: ys) ++ ']' :: rest) from by
            rw [jserItems]
            simp]
          simp only [parseJItems, hv]
          simp [skipJWs_cons (by decide : isJWs ',' = false), key]
  termination_by x xs _ _ _ => sizeOf x + sizeOf xs
/-- Parsing rendered object members recovers them. -/
theorem parse_jser_members : ∀ (k : String) (v : Json) (ms : List (String × Json))
    (fuel : Nat) (rest : List Char),
    jsizeMembers ((k, v) :: ms) ≤ fuel →
    parseJMembers fuel (jserMembers ((k, v) :: ms) ++ '\x7d' :: rest)
      = some ((k, v) :: ms, rest)
  | k, v, ms, fuel, rest, hf => by
      have hv1 : 1 ≤ jsize v := jsize_pos v
      rw [jsizeMembers] at hf
      obtain ⟨f, rfl⟩ : ∃ f, fuel = f + 1 := ⟨fuel - 1, by omega⟩
      cases ms with
      | nil =>
          have hv := parse_jser_val v f ('\x7d' :: rest) (by omega) (by rfl)
          rw [show jserMembers [(k, v)] ++ '\x7d' :: rest
              = '"' :: ((k.data.map escChar).flatten
                  ++ '"' :: (':' :: (jser v ++ '\x7d' :: rest))) from by
            rw [jserMembers, strLit]
            simp]
          simp only [parseJMembers, skipJWs_cons (by decide : isJWs '"' = false)]
          simp only [parseJStrBody_strLit, skipJWs_cons (by decide : isJWs ':' = false), hv]
          simp [skipJWs_cons (by decide : isJWs '\x7d' = false)]
      | cons m ms2 =>
          cases m with
          | mk k2 v2 =>
              rw [jsizeMembers] at hf
              have hv2 : 1 ≤ jsize v2 := jsize_pos v2
              have hv := parse_jser_val v f
                (',' :: (jserMembers ((k2, v2) :: ms2) ++ '\x7d' :: rest)) (by omega) (by rfl)
              have key := parse_jser_members k2 v2 ms2 f rest (by rw [jsizeMembers]; omega)
              rw [show jserMembers ((k, v) :: (k2, v2) :: ms2) ++ '\x7d' :: rest
                  = '"' :: ((k.data.map escChar).flatten
                      ++ '"' :: (':' :: (jser v ++ ',' ::
                          (jserMembers ((k2, v2) :: ms2) ++ '\x7d' :: rest)))) from by
                rw [jserMembers, strLit]
                simp]
              simp only [parseJMembers, skipJWs_cons (by decide : isJWs '"' = false)]
              simp only [parseJStrBody_strLit,
                skipJWs_cons (by decide : isJWs ':' = false), hv]
              simp [skipJWs_cons (by decide : isJWs ',' = false), key]
  termination_by _ v ms _ _ _ => 1 + sizeOf v + sizeOf ms
end

mutual
/-- A value's size never exceeds its serialization's length. -/
theorem jsize_le_len : ∀ v : Json, jsize v ≤ (jser v).length
  | .null => by simp [jsize, jser]
  | .bool true => by simp [jsize, jser]
  | .bool false => by simp [jsize, jser]
  | .num n => by
      obtain ⟨c, t, he, _⟩ := intChars_head n
      rw [jsize, jser, he]
      simp
  | .str s => by
      rw [jsize, jser, strLit]
      simp
  | .arr xs => by
      have := jsizeList_le_len xs
      rw [jsize, jser]
      simp only [List.length_cons, List.length_append, List.length_singleton]
      omega
  | .obj ms => by
      have := jsizeMembers_le_len ms
      rw [jsize, jser]
      simp only [List.length_cons, List.length_append, List.length_singleton]
      omega
/-- `jsize_le_len` over element lists (with one slack). -/
theorem jsizeList_le_len : ∀ xs : List Json, jsizeList xs ≤ (jserItems xs).length + 1
  | [] => by simp [jsizeList, jserItems]
  | [x] => by
      have := jsize_le_len x
      rw [jsizeList, jsizeList, jserItems]
      omega
  | x :: y :: r => by
      have h1 := jsize_le_len x
      have h2 := jsizeList_le_len (y :: r)
      rw [jsizeList, jserItems]
      simp only [List.length_append, List.length_cons]
      omega
/-- `jsize_le_len` over member lists (with one slack). -/
theorem jsizeMembers_le_len : ∀ ms : List (String × Json),
    jsizeMembers ms ≤ (jserMembers ms).length + 1
  | [] => by simp [jsizeMembers, jserMembers]
  | [(k, v)] => by
      have := jsize_le_len v
      rw [jsizeMembers, jsizeMembers, jserMembers, strLit]
      simp only [List.length_append, List.length_cons]
      omega
  | (k, v) :: m :: r => by
      have h1 := jsize_le_len v
      have h2 := jsizeMembers_le_len (m :: r)
      rw [jsizeMembers, jserMembers, strLit]
      simp only [List.length_append, List.length_cons]
      omega
end

/-- The `JSON.parse` model inverts the `JSON.stringify` model. -/
theorem jsonParse_jser (v : Json) : jsonParse (jser v) = some v := by
  have hs := jsize_le_len v
  have h := parse_jser_val v ((jser v).length + 1) [] (by omega) (by rfl)
  rw [List.append_nil] at h
  rw [jsonParse, h]
  simp [skipJWs]

/-! ## Latin-1 content survives serialization -/

/-- Append preserves the Latin-1 property. -/
theorem isLatin1_append {a b : List Char} (ha : isLatin1 a = true) (hb : isLatin1 b = true) :
    isLatin1 (a ++ b) = true := by
  simp only [isLatin1, List.all_append, Bool.and_eq_true]
  exact ⟨ha, hb⟩

/-- Digit runs are Latin-1. -/
theorem natChars_latin1 (n : Nat) : isLatin1 (natChars n) = true := by
  rw [isLatin1, List.all_eq_true]
  intro c hc
  have := natChars_digits n c hc
  simp only [isDigitC, Bool.and_eq_true, decide_eq_true_eq] at this
  simp only [decide_eq_true_eq]
  omega

/-- Rendered integers are Latin-1. -/
theorem intChars_latin1 (i : Int) : isLatin1 (intChars i) = true := by
  rw [intChars]
  split
  · refine isLatin1_append (a := ['-']) (by decide) (natChars_latin1 _)
  · exact natChars_latin1 _

/-- Escaping a Latin-1 character yields Latin-1 text. -/
theorem escChar_latin1 {c : Char} (h : c.toNat < 256) : isLatin1 (escChar c) = true := by
  rw [escChar]
  split_ifs with h1 h2 h3 h4 h5 h6 h7 h8
  · decide
  · decide
  · decide
  · decide
  · decide
  · decide
  · decide
  · have hx1 : (hexDigitLower (c.toNat / 16)).toNat < 256 := by
      rw [hexDigitLower]
      split
      · rw [toNat_ofNat_lt (by omega)]
        omega
      · rw [toNat_ofNat_lt (by omega)]
        omega
    have hx2 : (hexDigitLower (c.toNat % 16)).toNat < 256 := by
      rw [hexDigitLower]
      split
      · rw [toNat_ofNat_lt (by omega)]
        omega
      · rw [toNat_ofNat_lt (by omega)]
        omega
    simp only [isLatin1, List.all_cons, List.all_nil, Bool.and_eq_true, decide_eq_true_eq]
    refine ⟨by decide, by decide, by decide, by decide, hx1, hx2, trivial⟩
  · simpa [isLatin1] using h

/-- String literals of Latin-1 strings are Latin-1. -/
theorem strLit_latin1 {s : String} (h : isLatin1 s.data = true) :
    isLatin1 (strLit s) = true := by
  rw [strLit]
  have hbody : isLatin1 (s.data.map escChar).flatten = true := by
    rw [isLatin1, List.all_eq_true]
    intro c hc
    rw [List.mem_flatten] at hc
    obtain ⟨l, hl, hcl⟩ := hc
    rcases List.mem_map.mp hl with ⟨c2, hc2, rfl⟩
    have h2 : c2.toNat < 256 := by
      have := List.all_eq_true.mp h c2 hc2
      simpa using this
    have := List.all_eq_true.mp (escChar_latin1 h2) c hcl
    simpa using this
  have : isLatin1 ((s.data.map escChar).flatten ++ ['"']) = true :=
    isLatin1_append hbody (by decide)
  simpa [isLatin1] using this

mutual
/-- Serialization of a Latin-1 value is Latin-1, so `btoa` accepts it. -/
theorem jser_latin1 : ∀ v : Json, jsonLatin1 v = true → isLatin1 (jser v) = true
  | .null, _ => by decide
  | .bool true, _ => by decide
  | .bool false, _ => by decide
  | .num n, _ => by
      rw [jser]
      exact intChars_latin1 n
  | .str s, h => by
      rw [jser]
      exact strLit_latin1 (by simpa [jsonLatin1] using h)
  | .arr xs, h => by
      rw [jser]
      have hxs : isLatin1 (jserItems xs) = true :=
        jserItems_latin1 xs (by simpa [jsonLatin1] using h)
      have : isLatin1 (jserItems xs ++ [']']) = true := isLatin1_append hxs (by decide)
      simpa [isLatin1] using this
  | .obj ms, h => by
      rw [jser]
      have hms : isLatin1 (jserMembers ms) = true :=
        jserMembers_latin1 ms (by simpa [jsonLatin1] using h)
      have : isLatin1 (jserMembers ms ++ ['\x7d']) = true := isLatin1_append hms (by decide)
      simpa [isLatin1] using this
/-- `jser_latin1` over element lists. -/
theorem jserItems_latin1 : ∀ xs : List Json, jsonLatin1List xs = true →
    isLatin1 (jserItems xs) = true
  | [], _ => by decide
  | [x], h => by
      rw [jserItems]
      exact jser_latin1 x (by simpa [jsonLatin1List] using h)
  | x :: y :: r, h => by
      rw [jsonLatin1List, Bool.and_eq_true] at h
      rw [jserItems]
      refine isLatin1_append (jser_latin1 x h.1) ?_
      have : isLatin1 (jserItems (y :: r)) = true := jserItems_latin1 (y :: r) h.2
      simpa [isLatin1] using this
/-- `jser_latin1` over member lists. -/
theorem jserMembers_latin1 : ∀ ms : List (String × Json), jsonLatin1Members ms = true →
    isLatin1 (jserMembers ms) = true
  | [], _ => by decide
  | [(k, v)], h => by
      rw [jsonLatin1Members, jsonLatin1Members, Bool.and_eq_true, Bool.and_eq_true] at h
      rw [jserMembers]
      refine isLatin1_append (strLit_latin1 h.1.1) ?_
      have : isLatin1 (jser v) = true := jser_latin1 v h.1.2
      simpa [isLatin1] using this
  | (k, v) :: m :: r, h => by
      rw [jsonLatin1Members, Bool.and_eq_true, Bool.and_eq_true] at h
      rw [jserMembers]
      refine isLatin1_append (strLit_latin1 h.1.1) ?_
      have h1 : isLatin1 (jser v) = true := jser_latin1 v h.1.2
      have h2 : isLatin1 (jserMembers (m :: r)) = true := jserMembers_latin1 (m :: r) h.2
      have : isLatin1 (jser v ++ ',' :: jserMembers (m :: r)) = true := by
        refine isLatin1_append h1 ?_
        simpa [isLatin1] using h2
      simpa [isLatin1] using this
end

/-! ## Splitter lemmas -/

/-- Splitting a separator-free list yields exactly that list. -/
theorem splitSep_free (sep : Char) : ∀ l : List Char, (∀ c ∈ l, c ≠ sep) →
    splitSep sep l = [l]
  | [], _ => rfl
  | c :: r, h => by
      have hc : c ≠ sep := h c (by simp)
      rw [splitSep, if_neg hc, splitSep_free sep r (fun x hx => h x (by simp [hx]))]

/-- Splitting peels one separator-free field at a time. -/
theorem splitSep_append (sep : Char) : ∀ a : List Char, (∀ c ∈ a, c ≠ sep) →
    ∀ b : List Char, splitSep sep (a ++ sep :: b) = a :: splitSep sep b
  | [], _ => by
      intro b
      simp [splitSep]
  | c :: r, h => by
      intro b
      have hc : c ≠ sep := h c (by simp)
      rw [List.cons_append, splitSep, if_neg hc,
        splitSep_append sep r (fun x hx => h x (by simp [hx])) b]

/-- No split point in a separator-free list. -/
theorem splitFirst_free (sep : Char) : ∀ l : List Char, (∀ c ∈ l, c ≠ sep) →
    splitFirst sep l = none
  | [], _ => rfl
  | c :: r, h => by
      have hc : c ≠ sep := h c (by simp)
      rw [splitFirst, if_neg hc, splitFirst_free sep r (fun x hx => h x (by simp [hx]))]
      rfl

/-- The first split lands on the first separator. -/
theorem splitFirst_append (sep : Char) : ∀ a : List Char, (∀ c ∈ a, c ≠ sep) →
    ∀ b : List Char, splitFirst sep (a ++ sep :: b) = some (a, b)
  | [], _ => by
      intro b
      simp [splitFirst]
  | c :: r, h => by
      intro b
      have hc : c ≠ sep := h c (by simp)
      rw [List.cons_append, splitFirst, if_neg hc,
        splitFirst_append sep r (fun x hx => h x (by simp [hx])) b]
      rfl

/-- `takeWhile` over a miss-free prefix stops exactly at the first hit. -/
theorem takeWhile_not_append (p : Char → Bool) : ∀ a : List Char, (∀ c ∈ a, p c = false) →
    ∀ c : Char, p c = true → ∀ b : List Char,
    (a ++ c :: b).takeWhile (fun x => !p x) = a
  | [], _ => by
      intro c hc b
      simp [List.takeWhile_cons, hc]
  | x :: r, h => by
      intro c hc b
      have hx : p x = false := h x (by simp)
      have ih := takeWhile_not_append p r (fun y hy => h y (by simp [hy])) c hc b
      simp [List.takeWhile_cons, hx, ih]

/-- `dropWhile` over a miss-free prefix drops exactly up to the first hit. -/
theorem dropWhile_not_append (p : Char → Bool) : ∀ a : List Char, (∀ c ∈ a, p c = false) →
    ∀ c : Char, p c = true → ∀ b : List Char,
    (a ++ c :: b).dropWhile (fun x => !p x) = c :: b
  | [], _ => by
      intro c hc b
      simp [List.dropWhile_cons, hc]
  | x :: r, h => by
      intro c hc b
      have hx : p x = false := h x (by simp)
      have ih := dropWhile_not_append p r (fun y hy => h y (by simp [hy])) c hc b
      simp [List.dropWhile_cons, hx, ih]

/-- `spanUntil` passes over a prefix no character of which satisfies `p` and
stops at a hit. -/
theorem spanUntil_append (p : Char → Bool) (a : List Char) (ha : ∀ c ∈ a, p c = false)
    (c : Char) (hc : p c = true) (b : List Char) :
    spanUntil p (a ++ c :: b) = (a, c :: b) := by
  rw [spanUntil, takeWhile_not_append p a ha c hc b, dropWhile_not_append p a ha c hc b]

/-- `spanUntil` consumes everything when nothing satisfies `p`. -/
theorem spanUntil_all (p : Char → Bool) (a : List Char) (ha : ∀ c ∈ a, p c = false) :
    spanUntil p a = (a, []) := by
  rw [spanUntil, Prod.mk.injEq]
  refine ⟨?_, ?_⟩
  · rw [List.takeWhile_eq_self_iff]
    intro x hx
    simp [ha x hx]
  · rw [List.dropWhile_eq_nil_iff]
    intro x hx
    simp [ha x hx]

/-! ## UTF-8 and percent-encoding round trip -/

/-- The scalar-value range of a character's code. -/
theorem char_toNat_range (c : Char) :
    c.toNat < 0xD800 ∨ (0xDFFF < c.toNat ∧ c.toNat < 0x110000) := by
  have hv := c.valid
  rcases hv with h | ⟨h1, h2⟩
  · left
    exact_mod_cast h
  · right
    constructor <;> exact_mod_cast ‹_›

/-- UTF-8 bytes are bytes. -/
theorem utf8EncChar_lt (c : Char) : ∀ b ∈ utf8EncChar c, b < 256 := by
  have hv := char_toNat_range c
  rw [utf8EncChar]
  split_ifs with h1 h2 h3
  · intro b hb
    simp only [List.mem_singleton] at hb
    omega
  · intro b hb
    simp only [List.mem_cons, List.not_mem_nil, or_false] at hb
    rcases hb with rfl | rfl <;> omega
  · intro b hb
    simp only [List.mem_cons, List.not_mem_nil, or_false] at hb
    rcases hb with rfl | rfl | rfl <;> omega
  · intro b hb
    simp only [List.mem_cons, List.not_mem_nil, or_false] at hb
    have hlt : c.toNat < 0x110000 := by omega
    rcases hb with rfl | rfl | rfl | rfl <;> omega


/-- Decoding the UTF-8 bytes of one character recovers it, whatever bytes
follow. -/
theorem utf8Dec_encChar (c : Char) (r : List Nat) :
    utf8Dec (utf8EncChar c ++ r) = c :: utf8Dec r := by
  have hv := char_toNat_range c
  rw [utf8EncChar]
  split_ifs with h1 h2 h3
  · rw [List.singleton_append, utf8Dec]
    rw [if_pos h1, Char.ofNat_toNat]
  · rw [List.cons_append, List.cons_append, List.nil_append, utf8Dec]
    rw [if_neg (by omega), if_neg (by omega), if_pos (by omega), utf8DecTwo,
      if_pos (by simp only [isContByte, Bool.and_eq_true, decide_eq_true_eq]; omega)]
    have harith : (0xC0 + c.toNat / 64 - 0xC0) * 64 + (0x80 + c.toNat % 64 - 0x80)
        = c.toNat := by omega
    rw [harith, Char.ofNat_toNat]
  · rw [List.cons_append, List.cons_append, List.cons_append, List.nil_append, utf8Dec]
    rw [if_neg (by omega), if_neg (by omega), if_neg (by omega), if_pos (by omega),
      utf8DecThree,
      if_pos (by simp only [isContByte, Bool.and_eq_true, decide_eq_true_eq]; omega)]
    have harith : (0xE0 + c.toNat / 4096 - 0xE0) * 4096
        + (0x80 + c.toNat / 64 % 64 - 0x80) * 64 + (0x80 + c.toNat % 64 - 0x80)
        = c.toNat := by omega
    rw [harith, Char.ofNat_toNat]
  · rw [List.cons_append, List.cons_append, List.cons_append, List.cons_append,
      List.nil_append, utf8Dec]
    have hlt : c.toNat < 0x110000 := by omega
    rw [if_neg (by omega), if_neg (by omega), if_neg (by omega), if_neg (by omega),
      utf8DecFour,
      if_pos (by simp only [isContByte, Bool.and_eq_true, decide_eq_true_eq]; omega)]
    have harith : (0xF0 + c.toNat / 262144 - 0xF0) * 262144
        + (0x80 + c.toNat / 4096 % 64 - 0x80) * 4096
        + (0x80 + c.toNat / 64 % 64 - 0x80) * 64 + (0x80 + c.toNat % 64 - 0x80)
        = c.toNat := by omega
    rw [harith, Char.ofNat_toNat]

/-- Decoding inverts UTF-8 encoding. -/
theorem utf8Dec_utf8Enc : ∀ l : List Char, utf8Dec (utf8Enc l) = l
  | [] => by
      show utf8Dec ((([] : List Char).map utf8EncChar).flatten) = []
      rw [List.map_nil, List.flatten_nil, utf8Dec]
  | c :: l => by
      rw [utf8Enc, List.map_cons, List.flatten_cons, utf8Dec_encChar]
      have ih := utf8Dec_utf8Enc l
      rw [utf8Enc] at ih
      rw [ih]

/-- Uppercase hex digits decode to their value. -/
theorem hexValC_upper : ∀ n < 16, hexValC (hexDigitUpper n) = some n := by decide

/-- Safe bytes are visible ASCII outside the protocol's metacharacters. -/
theorem isFormSafe_facts {b : Nat} (h : isFormSafe b = true) :
    b < 0x80 ∧ b ≠ 37 ∧ b ≠ 43 ∧ b ≠ 32 ∧ b ≠ 61 ∧ b ≠ 38 ∧ b ≠ 35 ∧ b ≠ 63 := by
  simp only [isFormSafe, Bool.or_eq_true, Bool.and_eq_true, decide_eq_true_eq] at h
  omega

/-- Percent-decoding undoes the byte serializer, whatever text follows. -/
theorem pctDecBytes_encByte {b : Nat} (hb : b < 256) (r : List Char) :
    pctDecBytes (pctEncByte b ++ r) = b :: pctDecBytes r := by
  rw [pctEncByte]
  split_ifs with h1 h2
  · subst h1
    rw [List.singleton_append, pctDecBytes, if_neg (by decide), if_pos rfl]
  · obtain ⟨hlt, hp, hpl, hsp, _⟩ := isFormSafe_facts h2
    have ht : (Char.ofNat b).toNat = b := toNat_ofNat_lt (by omega)
    have hne1 : Char.ofNat b ≠ '%' := by
      intro he
      have := congrArg Char.toNat he
      rw [ht] at this
      exact hp (by simpa using this)
    have hne2 : Char.ofNat b ≠ '+' := by
      intro he
      have := congrArg Char.toNat he
      rw [ht] at this
      exact hpl (by simpa using this)
    rw [List.singleton_append, pctDecBytes, if_neg hne1, if_neg hne2, utf8EncChar, ht,
      if_pos hlt, List.singleton_append]
  · have harith : b / 16 * 16 + b % 16 = b := by omega
    rw [List.cons_append, List.cons_append, List.cons_append, List.nil_append, pctDecBytes,
      if_pos rfl, pctDecAfter, hexValC_upper _ (by omega), hexValC_upper _ (by omega)]
    simp [harith]

/-- Percent-decoding a serialized byte list recovers it. -/
theorem pctDecBytes_flat : ∀ bs : List Nat, (∀ b ∈ bs, b < 256) → ∀ r : List Char,
    pctDecBytes ((bs.map pctEncByte).flatten ++ r) = bs ++ pctDecBytes r
  | [], _ => by
      intro r
      simp
  | b :: bs, h => by
      intro r
      have hb : b < 256 := h b (by simp)
      have ih := pctDecBytes_flat bs (fun x hx => h x (by simp [hx])) r
      rw [List.map_cons, List.flatten_cons, List.append_assoc, pctDecBytes_encByte hb, ih,
        List.cons_append]

/-- Bytes of a UTF-8 encoded string are bytes. -/
theorem utf8Enc_lt (l : List Char) : ∀ b ∈ utf8Enc l, b < 256 := by
  intro b hb
  rw [utf8Enc, List.mem_flatten] at hb
  obtain ⟨bs, hbs, hbbs⟩ := hb
  rcases List.mem_map.mp hbs with ⟨c, _, rfl⟩
  exact utf8EncChar_lt c b hbbs

/-- Decoding an urlencoded component undoes encoding. -/
theorem formDec_formEnc (s : String) : formDecComponent (formEncStr s) = s := by
  rw [formDecComponent, formEncStr]
  have h := pctDecBytes_flat (utf8Enc s.data) (utf8Enc_lt s.data) []
  rw [List.append_nil] at h
  rw [h, pctDecBytes, List.append_nil, utf8Dec_utf8Enc]

/-- Serialized components avoid the urlencoded metacharacters. -/
theorem formEncStr_chars (s : String) :
    ∀ c ∈ formEncStr s, c ≠ '=' ∧ c ≠ '&' ∧ c ≠ '#' ∧ c ≠ '?' := by
  intro c hc
  rw [formEncStr, List.mem_flatten] at hc
  obtain ⟨piece, hp, hcp⟩ := hc
  rcases List.mem_map.mp hp with ⟨b, hb, rfl⟩
  have hblt : b < 256 := utf8Enc_lt s.data b hb
  rw [pctEncByte] at hcp
  split_ifs at hcp with h1 h2
  · simp only [List.mem_singleton] at hcp
    subst hcp
    refine ⟨by decide, by decide, by decide, by decide⟩
  · simp only [List.mem_singleton] at hcp
    subst hcp
    obtain ⟨hlt, _, _, _, he, ha, hh, hq⟩ := isFormSafe_facts h2
    have ht : (Char.ofNat b).toNat = b := toNat_ofNat_lt (by omega)
    refine ⟨?_, ?_, ?_, ?_⟩ <;>
      (intro he2
       have := congrArg Char.toNat he2
       rw [ht] at this
       simp at this
       omega)
  · simp only [List.mem_cons, List.not_mem_nil, or_false] at hcp
    have hhex : ∀ n < 16, (hexDigitUpper n) ≠ '=' ∧ (hexDigitUpper n) ≠ '&' ∧
        (hexDigitUpper n) ≠ '#' ∧ (hexDigitUpper n) ≠ '?' := by decide
    rcases hcp with rfl | rfl | rfl
    · refine ⟨by decide, by decide, by decide, by decide⟩
    · exact hhex _ (by omega)
    · exact hhex _ (by omega)

/-- The urlencoded parser inverts the serializer. -/
theorem formUrlDecode_encode : ∀ pairs : List (String × String),
    formUrlDecode (formUrlEncode pairs) = pairs
  | [] => rfl
  | (k, v) :: pairs => by
      have hpiece : ∀ c ∈ formEncStr k ++ '=' :: formEncStr v, c ≠ '&' := by
        intro c hc
        rcases List.mem_append.mp hc with h | h
        · exact (formEncStr_chars k c h).2.1
        · rcases List.mem_cons.mp h with rfl | h
          · decide
          · exact (formEncStr_chars v c h).2.1
      have hkeq : ∀ c ∈ formEncStr k, c ≠ '=' := fun c hc => (formEncStr_chars k c hc).1
      have hsplit : splitFirst '=' (formEncStr k ++ '=' :: formEncStr v)
          = some (formEncStr k, formEncStr v) := splitFirst_append '=' _ hkeq _
      have hparse : parsePiece (formEncStr k ++ '=' :: formEncStr v) = (k, v) := by
        rw [parsePiece, hsplit]
        simp [formDec_formEnc]
      cases pairs with
      | nil =>
          rw [formUrlEncode, List.map_cons, List.map_nil, joinAmp, formUrlDecode,
            splitSep_free '&' _ hpiece]
          simp [hparse]
      | cons p2 rest =>
          obtain ⟨k2, v2⟩ := p2
          have ih := formUrlDecode_encode ((k2, v2) :: rest)
          rw [formUrlDecode, formUrlEncode] at ih
          rw [List.map_cons] at ih
          rw [formUrlEncode, List.map_cons, List.map_cons, joinAmp, formUrlDecode,
            splitSep_append '&' _ hpiece]
          simp only [List.filter_cons]
          rw [show decide ((formEncStr k ++ '=' :: formEncStr v : List Char) ≠ []) = true from
            by simp]
          rw [if_pos rfl, List.map_cons, hparse]
          exact congrArg (fun t => (k, v) :: t) ih

/-- After the URL-safe substitution, no alphabet character is a URI
delimiter. -/
theorem b64uSubst_alphabet : ∀ c ∈ b64Alphabet,
    b64uSubst c ≠ '/' ∧ b64uSubst c ≠ '?' ∧ b64uSubst c ≠ '#' ∧ b64uSubst c ≠ '&' ∧
      b64uSubst c ≠ '=' := by decide

/-- A Base64u payload contains no URI delimiter. -/
theorem b64uEnc_chars {s e : List Char} (he : b64uEnc s = some e) :
    ∀ c ∈ e, c ≠ '/' ∧ c ≠ '?' ∧ c ≠ '#' ∧ c ≠ '&' ∧ c ≠ '=' := by
  rw [b64uEnc, btoa] at he
  split_ifs at he with hall
  · simp only [Option.map_some', Option.some.injEq] at he
    subst he
    intro c hc
    rcases List.mem_map.mp hc with ⟨x, hx, rfl⟩
    have hlt : ∀ b ∈ s.map Char.toNat, b < 256 := by
      intro b hb
      rcases List.mem_map.mp hb with ⟨ch, hch, rfl⟩
      simpa using List.all_eq_true.mp hall ch hch
    rcases b64EncBody_chars _ hlt x hx with ⟨hmem, _, _⟩ | rfl
    · exact b64uSubst_alphabet x (List.mem_of_elem_eq_true hmem)
    · refine ⟨by decide, by decide, by decide, by decide, by decide⟩
  · cases he

/-- `new URL` on `steem://sign/<path>?<query>`: parts as `decode` reads
them, provided the path avoids `#` and `?` and the query avoids `#`. -/
theorem parseUrl_steem_query (path q : List Char)
    (hpath : ∀ c ∈ path, c ≠ '#' ∧ c ≠ '?')
    (hq : ∀ c ∈ q, c ≠ '#') :
    parseUrl ("steem://sign/".data ++ (path ++ '?' :: q)) =
      some ⟨"steem:".data, "sign".data, '/' :: path, q⟩ := by
  have hnf : splitSep '#' ("steem://sign/".data ++ (path ++ '?' :: q))
      = ["steem://sign/".data ++ (path ++ '?' :: q)] := by
    apply splitSep_free
    intro c hc
    rcases List.mem_append.mp hc with h | h
    · intro he
      subst he
      revert h
      decide
    · rcases List.mem_append.mp h with h | h
      · exact (hpath c h).1
      · rcases List.mem_cons.mp h with rfl | h
        · decide
        · exact hq c h
  have hsf : splitFirst ':' ("steem://sign/".data ++ (path ++ '?' :: q))
      = some ('s' :: "teem".data,
          '/' :: '/' :: ('s' :: 'i' :: 'g' :: 'n' :: '/' :: (path ++ '?' :: q))) :=
    splitFirst_append ':' "steem".data (by decide) _
  have hspan1 : spanUntil (fun c => c = '/' || c = '?')
      ('s' :: 'i' :: 'g' :: 'n' :: '/' :: (path ++ '?' :: q))
      = (['s', 'i', 'g', 'n'], '/' :: (path ++ '?' :: q)) :=
    spanUntil_append _ ['s', 'i', 'g', 'n'] (by decide) '/' (by decide) _
  have hspan2 : spanUntil (fun c => c = '?') ('/' :: (path ++ '?' :: q))
      = ('/' :: path, '?' :: q) := by
    refine spanUntil_append _ ('/' :: path) ?_ '?' (by decide) q
    intro c hc
    rcases List.mem_cons.mp hc with rfl | hc
    · decide
    · exact decide_eq_false (hpath c hc).2
  have hproto : (('s' :: "teem".data).map Char.toLower) = "steem".data := by decide
  simp only [parseUrl, hnf, List.headD_cons, hsf, hspan1, hspan2, hproto, reduceIte]
  rw [if_neg (by decide), if_neg (by decide), if_neg (by decide)]
  split
  all_goals first
    | rfl
    | (rename_i h; simp at h)

/-- `new URL` on `steem://sign/<path>` without a query: empty search. -/
theorem parseUrl_steem_noquery (path : List Char)
    (hpath : ∀ c ∈ path, c ≠ '#' ∧ c ≠ '?') :
    parseUrl ("steem://sign/".data ++ path) =
      some ⟨"steem:".data, "sign".data, '/' :: path, []⟩ := by
  have hnf : splitSep '#' ("steem://sign/".data ++ path)
      = ["steem://sign/".data ++ path] := by
    apply splitSep_free
    intro c hc
    rcases List.mem_append.mp hc with h | h
    · intro he
      subst he
      revert h
      decide
    · exact (hpath c h).1
  have hsf : splitFirst ':' ("steem://sign/".data ++ path)
      = some ('s' :: "teem".data,
          '/' :: '/' :: ('s' :: 'i' :: 'g' :: 'n' :: '/' :: path)) :=
    splitFirst_append ':' "steem".data (by decide) _
  have hspan1 : spanUntil (fun c => c = '/' || c = '?')
      ('s' :: 'i' :: 'g' :: 'n' :: '/' :: path)
      = (['s', 'i', 'g', 'n'], '/' :: path) :=
    spanUntil_append _ ['s', 'i', 'g', 'n'] (by decide) '/' (by decide) _
  have hspan2 : spanUntil (fun c => c = '?') ('/' :: path) = ('/' :: path, []) := by
    apply spanUntil_all
    intro c hc
    rcases List.mem_cons.mp hc with rfl | hc
    · decide
    · exact decide_eq_false (hpath c hc).2
  have hproto : (('s' :: "teem".data).map Char.toLower) = "steem".data := by decide
  simp only [parseUrl, hnf, List.headD_cons, hsf, hspan1, hspan2, hproto]
  rw [if_neg (by decide), if_neg (by decide), if_neg (by decide)]
  split
  all_goals first
    | rfl
    | (rename_i h; simp at h)

/-- The pathname `/kind/payload` splits into its three fields. -/
theorem splitSep_path (kind pay : List Char) (hk : ∀ c ∈ kind, c ≠ '/')
    (hp : ∀ c ∈ pay, c ≠ '/') :
    splitSep '/' ('/' :: (kind ++ '/' :: pay)) = [[], kind, pay] := by
  rw [splitSep, if_pos rfl, splitSep_append '/' kind hk pay, splitSep_free '/' pay hp]

/-- A serialized query never contains `#` or `?`. -/
theorem formUrlEncode_chars : ∀ pairs : List (String × String),
    ∀ c ∈ formUrlEncode pairs, c ≠ '#' ∧ c ≠ '?'
  | [] => by simp [formUrlEncode, joinAmp]
  | [(k, v)] => by
      intro c hc
      rw [formUrlEncode, List.map_cons, List.map_nil, joinAmp] at hc
      rcases List.mem_append.mp hc with h | h
      · exact ⟨(formEncStr_chars k c h).2.2.1, (formEncStr_chars k c h).2.2.2⟩
      · rcases List.mem_cons.mp h with rfl | h
        · exact ⟨by decide, by decide⟩
        · exact ⟨(formEncStr_chars v c h).2.2.1, (formEncStr_chars v c h).2.2.2⟩
  | (k, v) :: kv2 :: r => by
      intro c hc
      simp only [formUrlEncode, List.map_cons, joinAmp] at hc
      rw [List.mem_append] at hc
      rcases hc with h | h
      · rcases List.mem_append.mp h with h2 | h2
        · exact ⟨(formEncStr_chars k c h2).2.2.1, (formEncStr_chars k c h2).2.2.2⟩
        · rcases List.mem_cons.mp h2 with rfl | h3
          · exact ⟨by decide, by decide⟩
          · exact ⟨(formEncStr_chars v c h3).2.2.1, (formEncStr_chars v c h3).2.2.2⟩
      · rcases List.mem_cons.mp h with rfl | h
        · exact ⟨by decide, by decide⟩
        · exact formUrlEncode_chars (kv2 :: r) c h

/-- A query with at least one pair serializes to a nonempty string. -/
theorem formUrlEncode_ne_nil (kv : String × String) (rest : List (String × String)) :
    formUrlEncode (kv :: rest) ≠ [] := by
  obtain ⟨k, v⟩ := kv
  cases rest with
  | nil =>
      rw [formUrlEncode, List.map_cons, List.map_nil, joinAmp]
      simp
  | cons kv2 r =>
      rw [formUrlEncode, List.map_cons, List.map_cons, joinAmp]
      simp

/-- Reading parameters from an empty query yields the empty record. -/
theorem decodeParams_nil : decodeParams [] = .ok {} := rfl

/-- Structure-eta for strings. -/
theorem String_mk_data (s : String) : String.mk s.data = s := rfl

/-- Reading back the query `encodeParameters` writes recovers the
parameters, provided no field holds a falsy non-default value
(`no_broadcast = some false`, an empty signer or an empty callback). -/
theorem decodeParams_encodeParameters (p : Parameters)
    (hnb : p.no_broadcast ≠ some false)
    (hs : p.signer ≠ some "")
    (hcb : p.callback ≠ some "")
    {qs : List Char} (henc : encodeParameters p = some qs) :
    (qs = [] ∧ p = {}) ∨
      ∃ body, qs = '?' :: body ∧ (∀ c ∈ body, c ≠ '#' ∧ c ≠ '?') ∧
        decodeParams body = .ok p := by
  obtain ⟨sg, cb, nb⟩ := p
  have hnbv : nb = none ∨ nb = some true := by
    rcases nb with _ | b
    · exact Or.inl rfl
    · cases b
      · exact absurd rfl hnb
      · exact Or.inr rfl
  clear hnb
  rcases sg with _ | sv
  · rcases cb with _ | cbv
    · rcases hnbv with rfl | rfl
      · rw [encodeParameters] at henc
        rw [if_neg (by decide : ¬((none : Option Bool) = some true))] at henc
        simp only [List.append_nil, List.nil_append, List.cons_append] at henc
        rw [show formUrlEncode [] = [] from rfl, if_pos rfl] at henc
        injection henc with henc
        subst henc
        exact Or.inl ⟨rfl, rfl⟩
      · rw [encodeParameters] at henc
        rw [if_pos (rfl : (some true : Option Bool) = some true)] at henc
        simp only [List.append_nil, List.nil_append, List.cons_append] at henc
        rw [if_neg (formUrlEncode_ne_nil _ _)] at henc
        injection henc with henc
        subst henc
        refine Or.inr ⟨_, rfl, formUrlEncode_chars _, ?_⟩
        simp [decodeParams, formUrlDecode_encode, spHas, spGet, String_mk_data]
    · have hcbv : cbv ≠ "" := by
        intro h
        exact hcb (by simp [h])
      cases hbe : b64uEnc cbv.data with
      | none =>
          rw [encodeParameters] at henc
          simp only [if_neg hcbv, hbe, Option.map_none'] at henc
          cases henc
      | some e =>
          have hbdec : b64uDec e = some cbv.data := b64uDec_b64uEnc hbe
          rcases hnbv with rfl | rfl
          · rw [encodeParameters] at henc
            rw [if_neg (by decide : ¬((none : Option Bool) = some true))] at henc
            simp only [if_neg hcbv, hbe, Option.map_some', List.append_nil, List.nil_append, List.cons_append] at henc
            rw [if_neg (formUrlEncode_ne_nil _ _)] at henc
            injection henc with henc
            subst henc
            refine Or.inr ⟨_, rfl, formUrlEncode_chars _, ?_⟩
            simp [decodeParams, formUrlDecode_encode, spHas, spGet, hbdec, String_mk_data]
          · rw [encodeParameters] at henc
            rw [if_pos (rfl : (some true : Option Bool) = some true)] at henc
            simp only [if_neg hcbv, hbe, Option.map_some', List.append_nil, List.nil_append, List.cons_append] at henc
            rw [if_neg (formUrlEncode_ne_nil _ _)] at henc
            injection henc with henc
            subst henc
            refine Or.inr ⟨_, rfl, formUrlEncode_chars _, ?_⟩
            simp [decodeParams, formUrlDecode_encode, spHas, spGet, hbdec, String_mk_data]
  · have hsv : sv ≠ "" := by
      intro h
      exact hs (by simp [h])
    rcases cb with _ | cbv
    · rcases hnbv with rfl | rfl
      · rw [encodeParameters] at henc
        rw [if_neg (by decide : ¬((none : Option Bool) = some true))] at henc
        simp only [if_neg hsv, List.append_nil, List.nil_append, List.cons_append] at henc
        rw [if_neg (formUrlEncode_ne_nil _ _)] at henc
        injection henc with henc
        subst henc
        refine Or.inr ⟨_, rfl, formUrlEncode_chars _, ?_⟩
        simp [decodeParams, formUrlDecode_encode, spHas, spGet, String_mk_data]
      · rw [encodeParameters] at henc
        rw [if_pos (rfl : (some true : Option Bool) = some true)] at henc
        simp only [if_neg hsv, List.append_nil, List.nil_append, List.cons_append] at henc
        rw [if_neg (formUrlEncode_ne_nil _ _)] at henc
        injection henc with henc
        subst henc
        refine Or.inr ⟨_, rfl, formUrlEncode_chars _, ?_⟩
        simp [decodeParams, formUrlDecode_encode, spHas, spGet, String_mk_data]
    · have hcbv : cbv ≠ "" := by
        intro h
        exact hcb (by simp [h])
      cases hbe : b64uEnc cbv.data with
      | none =>
          rw [encodeParameters] at henc
          simp only [if_neg hsv, if_neg hcbv, hbe, Option.map_none'] at henc
          cases henc
      | some e =>
          have hbdec : b64uDec e = some cbv.data := b64uDec_b64uEnc hbe
          rcases hnbv with rfl | rfl
          · rw [encodeParameters] at henc
            rw [if_neg (by decide : ¬((none : Option Bool) = some true))] at henc
            simp only [if_neg hsv, if_neg hcbv, hbe, Option.map_some', List.append_nil, List.nil_append, List.cons_append] at henc
            rw [if_neg (formUrlEncode_ne_nil _ _)] at henc
            injection henc with henc
            subst henc
            refine Or.inr ⟨_, rfl, formUrlEncode_chars _, ?_⟩
            simp [decodeParams, formUrlDecode_encode, spHas, spGet, hbdec, String_mk_data]
          · rw [encodeParameters] at henc
            rw [if_pos (rfl : (some true : Option Bool) = some true)] at henc
            simp only [if_neg hsv, if_neg hcbv, hbe, Option.map_some', List.append_nil, List.nil_append, List.cons_append] at henc
            rw [if_neg (formUrlEncode_ne_nil _ _)] at henc
            injection henc with henc
            subst henc
            refine Or.inr ⟨_, rfl, formUrlEncode_chars _, ?_⟩
            simp [decodeParams, formUrlDecode_encode, spHas, spGet, hbdec, String_mk_data]

/-- Amended round trip: decoding inverts `encodeTx` whenever the encoder
succeeds and no parameter holds a falsy non-default value. -/
theorem decode_encodeTx (t : Json) (p : Parameters) (u : String)
    (hnb : p.no_broadcast ≠ some false)
    (hs : p.signer ≠ some "")
    (hcb : p.callback ≠ some "")
    (henc : encodeTx t p = some u) :
    decode u = .ok ⟨t, p⟩ := by
  rw [encodeTx] at henc
  cases hej : encodeJson t with
  | none =>
      rw [hej] at henc
      simp only [] at henc
      cases henc
  | some pay =>
    cases hep : encodeParameters p with
    | none =>
        rw [hej, hep] at henc
        simp only [] at henc
        cases henc
    | some qs =>
      rw [hej, hep] at henc
      simp only [Option.some.injEq] at henc
      subst henc
      have hpay : b64uEnc (jser t) = some pay := hej
      have hchars := b64uEnc_chars hpay
      have hp4 : ∀ c ∈ ('t' :: 'x' :: '/' :: pay), c ≠ '#' ∧ c ≠ '?' := by
        intro c hc
        rcases List.mem_cons.mp hc with rfl | hc
        · exact ⟨by decide, by decide⟩
        rcases List.mem_cons.mp hc with rfl | hc
        · exact ⟨by decide, by decide⟩
        rcases List.mem_cons.mp hc with rfl | hc
        · exact ⟨by decide, by decide⟩
        exact ⟨(hchars c hc).2.2.1, (hchars c hc).2.1⟩
      have hsplit : splitSep '/' ('/' :: 't' :: 'x' :: '/' :: pay) = [[], ['t', 'x'], pay] :=
        splitSep_path ['t', 'x'] pay (by decide) (fun c hc => (hchars c hc).1)
      have hdec : b64uDec pay = some (jser t) := b64uDec_b64uEnc hpay
      rcases decodeParams_encodeParameters p hnb hs hcb hep with ⟨rfl, rfl⟩ |
        ⟨body, rfl, hbody, hdp⟩
      · have hurl : parseUrl ("steem://sign/tx/".data ++ pay ++ []) =
            some ⟨"steem:".data, "sign".data, '/' :: 't' :: 'x' :: '/' :: pay, []⟩ := by
          rw [List.append_nil]
          exact parseUrl_steem_noquery ('t' :: 'x' :: '/' :: pay) hp4
        simp only [decode, hurl, hsplit, List.drop_succ_cons, List.drop_zero,
          List.head?_cons, List.headD_cons, hdec, jsonParse_jser, decodeParams_nil]
        rw [if_neg (by decide), if_neg (by decide), if_pos (by decide)]
      · have hurl : parseUrl ("steem://sign/tx/".data ++ pay ++ '?' :: body) =
            some ⟨"steem:".data, "sign".data, '/' :: 't' :: 'x' :: '/' :: pay, body⟩ :=
          parseUrl_steem_query ('t' :: 'x' :: '/' :: pay) body hp4
            (fun c hc => (hbody c hc).1)
        simp only [decode, hurl, hsplit, List.drop_succ_cons, List.drop_zero,
          List.head?_cons, List.headD_cons, hdec, jsonParse_jser, hdp]
        rw [if_neg (by decide), if_neg (by decide), if_pos (by decide)]

/-- The resolver's scan of an empty string. -/
theorem substTokens_nil (ctx : SubstCtx) : substTokens ctx [] = [] := by
  simp [substTokens]

/-- An occurrence of `__ref_block_num` — wherever it starts — is replaced
and the scan resumes after it. -/
theorem substTokens_refNum (ctx : SubstCtx) (r : List Char) :
    substTokens ctx ('_' :: '_' :: 'r' :: 'e' :: 'f' :: '_' :: 'b' :: 'l' :: 'o' :: 'c'
      :: 'k' :: '_' :: 'n' :: 'u' :: 'm' :: r) = ctx.refNumV ++ substTokens ctx r := by
  rw [substTokens]
  have h1 : tokRefNum.isPrefixOf ('_' :: '_' :: 'r' :: 'e' :: 'f' :: '_' :: 'b' :: 'l'
      :: 'o' :: 'c' :: 'k' :: '_' :: 'n' :: 'u' :: 'm' :: r) = true := by
    rw [List.isPrefixOf_iff_prefix]
    exact List.prefix_append _ _
  rw [if_pos h1]
  norm_num [tokRefNum]

/-- An occurrence of `__signer` is replaced likewise. -/
theorem substTokens_signer (ctx : SubstCtx) (r : List Char) :
    substTokens ctx ('_' :: '_' :: 's' :: 'i' :: 'g' :: 'n' :: 'e' :: 'r' :: r)
      = ctx.signerV ++ substTokens ctx r := by
  rw [substTokens]
  have h1 : tokSigner.isPrefixOf ('_' :: '_' :: 's' :: 'i' :: 'g' :: 'n' :: 'e' :: 'r'
      :: r) = true := by
    rw [List.isPrefixOf_iff_prefix]
    exact List.prefix_append _ _
  rw [if_neg (by simp [tokRefNum, List.isPrefixOf]),
    if_neg (by simp [tokRefPre, List.isPrefixOf]),
    if_neg (by simp [tokExpiration, List.isPrefixOf]), if_pos h1]
  norm_num [tokSigner]

/-- A position where no token starts is copied. -/
theorem substTokens_copy (ctx : SubstCtx) (c : Char) (r : List Char)
    (h : anyTokenPrefix (c :: r) = false) :
    substTokens ctx (c :: r) = c :: substTokens ctx r := by
  rw [anyTokenPrefix] at h
  simp only [Bool.or_eq_false_iff] at h
  rw [substTokens, if_neg (by simp [h.1.1.1]), if_neg (by simp [h.1.1.2]),
    if_neg (by simp [h.1.2]), if_neg (by simp [h.2])]

/-- A token-free string passes through the resolver's scan unchanged. -/
theorem substTokens_tokenFree (ctx : SubstCtx) : ∀ l : List Char,
    tokenFree l = true → substTokens ctx l = l
  | [], _ => substTokens_nil ctx
  | c :: r, h => by
      rw [tokenFree, Bool.and_eq_true, Bool.not_eq_true'] at h
      rw [substTokens_copy ctx c r h.1, substTokens_tokenFree ctx r h.2]

/-- The callback scan of an empty string. -/
theorem cbSubst_nil (ctx : TransactionConfirmation) : cbSubst ctx [] = [] := by
  simp [cbSubst]

/-- Text free of `\x7b` passes through the callback scan and the scan
continues on the rest. -/
theorem cbSubst_nobrace (ctx : TransactionConfirmation) : ∀ a rest : List Char,
    (∀ c ∈ a, c ≠ '\x7b') → cbSubst ctx (a ++ rest) = a ++ cbSubst ctx rest
  | [], rest, _ => by simp
  | c :: a2, rest, h => by
      have hc : c ≠ '\x7b' := h c (by simp)
      have hne : (('\x7b' : Char) == c) = false := by
        rw [beq_eq_false_iff_ne]
        exact fun he => hc he.symm
      rw [List.cons_append, cbSubst, if_neg (by simp [cbTokSig, List.isPrefixOf, hne]),
        if_neg (by simp [cbTokId, List.isPrefixOf, hne]),
        if_neg (by simp [cbTokBlock, List.isPrefixOf, hne]),
        if_neg (by simp [cbTokTxn, List.isPrefixOf, hne]),
        cbSubst_nobrace ctx a2 rest (fun x hx => h x (by simp [hx])), List.cons_append]

/-- An occurrence of the template token `\x7b\x7bid\x7d\x7d` is replaced by
`ctx.id || ''` and the scan resumes after it. -/
theorem cbSubst_id (ctx : TransactionConfirmation) (r : List Char) :
    cbSubst ctx ('\x7b' :: '\x7b' :: 'i' :: 'd' :: '\x7d' :: '\x7d' :: r)
      = confStr ctx.id ++ cbSubst ctx r := by
  rw [cbSubst]
  have h1 : cbTokId.isPrefixOf ('\x7b' :: '\x7b' :: 'i' :: 'd' :: '\x7d' :: '\x7d' :: r)
      = true := by
    rw [List.isPrefixOf_iff_prefix]
    exact List.prefix_append _ _
  rw [if_neg (by simp [cbTokSig, List.isPrefixOf]), if_pos h1]
  norm_num [cbTokId]

/-- An occurrence of the template token `\x7b\x7bblock\x7d\x7d` is replaced
by `ctx.block || ''` and the scan resumes after it. -/
theorem cbSubst_block (ctx : TransactionConfirmation) (r : List Char) :
    cbSubst ctx ('\x7b' :: '\x7b' :: 'b' :: 'l' :: 'o' :: 'c' :: 'k' :: '\x7d' :: '\x7d'
      :: r) = confNum ctx.block ++ cbSubst ctx r := by
  rw [cbSubst]
  have h1 : cbTokBlock.isPrefixOf ('\x7b' :: '\x7b' :: 'b' :: 'l' :: 'o' :: 'c' :: 'k'
      :: '\x7d' :: '\x7d' :: r) = true := by
    rw [List.isPrefixOf_iff_prefix]
    exact List.prefix_append _ _
  rw [if_neg (by simp [cbTokSig, List.isPrefixOf]),
    if_neg (by simp [cbTokId, List.isPrefixOf]), if_pos h1]
  norm_num [cbTokBlock]

/-- A whole-string `__ref_block_num` value is replaced by the context
value. -/
theorem substTokens_exact_refNum (ctx : SubstCtx) :
    substTokens ctx ['_', '_', 'r', 'e', 'f', '_', 'b', 'l', 'o', 'c', 'k', '_', 'n',
      'u', 'm'] = ctx.refNumV := by
  have h := substTokens_refNum ctx []
  rw [substTokens_nil, List.append_nil] at h
  exact h

/-- `__ref_block_num` embedded inside `not__ref_block_num_embedded` is
still replaced: the scan matches at every position. -/
theorem substTokens_embedded (ctx : SubstCtx) :
    substTokens ctx ['n', 'o', 't', '_', '_', 'r', 'e', 'f', '_', 'b', 'l', 'o', 'c',
      'k', '_', 'n', 'u', 'm', '_', 'e', 'm', 'b', 'e', 'd', 'd', 'e', 'd']
      = 'n' :: 'o' :: 't' :: (ctx.refNumV ++ ['_', 'e', 'm', 'b', 'e', 'd', 'd', 'e',
          'd']) := by
  rw [show (['n', 'o', 't', '_', '_', 'r', 'e', 'f', '_', 'b', 'l', 'o', 'c', 'k', '_',
      'n', 'u', 'm', '_', 'e', 'm', 'b', 'e', 'd', 'd', 'e', 'd'] : List Char)
    = 'n' :: 'o' :: 't' :: ('_' :: '_' :: 'r' :: 'e' :: 'f' :: '_' :: 'b' :: 'l' :: 'o'
      :: 'c' :: 'k' :: '_' :: 'n' :: 'u' :: 'm' :: ['_', 'e', 'm', 'b', 'e', 'd', 'd',
      'e', 'd']) from rfl]
  rw [substTokens_copy _ _ _ (by decide), substTokens_copy _ _ _ (by decide),
    substTokens_copy _ _ _ (by decide), substTokens_refNum,
    substTokens_tokenFree _ _ (by decide)]

/-- `resolveTransaction` written with the selected signer named. -/
theorem resolveTransaction_eq (utx : Json) (p : Parameters) (o : ResolveOptions) :
    resolveTransaction utx p o =
      if o.signers.contains (chosenSigner p o) then
        .ok ⟨jwalk ⟨intChars o.ref_block_num, intChars o.ref_block_pre,
          o.expiration.data, (chosenSigner p o).data⟩ utx, chosenSigner p o⟩
      else .error .signerUnavailable := rfl

/-- C1 (amended): `resolveTransaction` substitutes placeholder tokens at
every occurrence, embedded ones included, and the replacement is always a
string — a numeric context value is inserted as its decimal text, not as a
number. On the spec's own example the embedded `__ref_block_num` inside
`not__ref_block_num_embedded` is rewritten too, and `ref_block_num` maps to
the string form of the context number. -/
theorem resolve_subst_amended (options : ResolveOptions)
    (hs : options.signers.contains options.preferred_signer = true) :
    resolveTransaction
      (Json.obj [("ref_block_num", Json.str "__ref_block_num"),
                 ("other", Json.str "not__ref_block_num_embedded")])
      {} options
      = .ok ⟨Json.obj
          [("ref_block_num", Json.str (String.mk (intChars options.ref_block_num))),
           ("other", Json.str (String.mk ('n' :: 'o' :: 't' ::
              (intChars options.ref_block_num ++ "_embedded".data))))],
          options.preferred_signer⟩ := by
  rw [resolveTransaction_eq]
  have hch : chosenSigner {} options = options.preferred_signer := rfl
  rw [hch, if_pos hs]
  simp only [jwalk, jwalkMembers, substTokens_exact_refNum, substTokens_embedded]

/-- Witness for C1 at a concrete context: block number 42 and signer
`alice`. -/
theorem resolve_subst_amended_witness :
    ((["alice"] : List String).contains "alice" = true) ∧
    resolveTransaction
      (Json.obj [("ref_block_num", Json.str "__ref_block_num"),
                 ("other", Json.str "not__ref_block_num_embedded")])
      {} ⟨42, 7, "2025-09-15T00:00:00", ["alice"], "alice"⟩
      = .ok ⟨Json.obj
          [("ref_block_num", Json.str (String.mk (intChars (42 : Int)))),
           ("other", Json.str (String.mk ('n' :: 'o' :: 't' ::
              (intChars (42 : Int) ++ "_embedded".data))))], "alice"⟩ :=
  ⟨by decide,
    resolve_subst_amended ⟨42, 7, "2025-09-15T00:00:00", ["alice"], "alice"⟩ (by decide)⟩

/-- Counterexample to C1 as stated: on the spec's example the resolver
returns the string `"42"` (not the number 42) for the exact-match value,
and rewrites the embedded occurrence to `not42_embedded` instead of
leaving it untouched. -/
theorem resolve_subst_counterexample :
    resolveTransaction
      (Json.obj [("ref_block_num", Json.str "__ref_block_num"),
                 ("other", Json.str "not__ref_block_num_embedded")])
      {} ⟨42, 7, "2025-09-15T00:00:00", ["alice"], "alice"⟩
      = .ok ⟨Json.obj [("ref_block_num", Json.str "42"),
                       ("other", Json.str "not42_embedded")], "alice"⟩ := by
  have h42 : intChars (42 : Int) = ['4', '2'] := by
    norm_num [intChars, natChars]
  rw [resolveTransaction_eq]
  rw [show chosenSigner {} ⟨42, 7, "2025-09-15T00:00:00", ["alice"], "alice"⟩
    = "alice" from rfl, if_pos (by decide)]
  simp only [jwalk, jwalkMembers, substTokens_exact_refNum, substTokens_embedded, h42]
  rfl

/-- C3 (amended): Base64u decoding undoes Base64u encoding — for every byte
string, decoding the encoder's output returns the original. The converse
direction does not hold: the forgiving decoder also accepts non-canonical
inputs (optional padding, spare bits in the last group), so Base64u
transcoding is not a bijection on valid Base64u strings. -/
theorem b64u_roundtrip_amended {s e : List Char} (he : b64uEnc s = some e) :
    b64uDec e = some s :=
  b64uDec_b64uEnc he

/-- Witness for C3 at the one-byte string `A`. -/
theorem b64u_roundtrip_witness :
    b64uEnc ['A'] = some "QQ..".data ∧ b64uDec "QQ..".data = some ['A'] :=
  ⟨rfl, b64u_roundtrip_amended rfl⟩

/-- Counterexample to C3 as stated: `QR..` is accepted by the decoder (its
spare low bits are discarded), yet re-encoding the result yields `QQ..`,
so `encode (decode x) = x` fails on the valid Base64u string `QR..`. -/
theorem b64u_bijection_counterexample :
    b64uDec "QR..".data = some ['A'] ∧ b64uEnc ['A'] = some "QQ..".data ∧
      "QQ..".data ≠ "QR..".data :=
  ⟨rfl, rfl, by decide⟩

/-- C4 (amended): the resolver picks `params.signer` only when it is set
and non-empty (JS truthiness — an empty string falls back to
`options.preferred_signer`), fails with `SignerUnavailable` exactly when
the picked signer is not in `options.signers`, and on success returns the
picked signer, a member of `options.signers`. -/
theorem signer_choice_amended (utx : Json) (p : Parameters) (o : ResolveOptions) :
    (resolveTransaction utx p o = .error .signerUnavailable ↔
      o.signers.contains (chosenSigner p o) = false) ∧
    ∀ r, resolveTransaction utx p o = .ok r →
      r.signer = chosenSigner p o ∧ o.signers.contains r.signer = true := by
  rw [resolveTransaction_eq]
  by_cases hc : o.signers.contains (chosenSigner p o) = true
  · rw [if_pos hc]
    refine ⟨⟨?_, ?_⟩, ?_⟩
    · intro h
      cases h
    · intro h
      rw [hc] at h
      exact absurd h (by decide)
    · intro r hr
      injection hr with hr
      subst hr
      exact ⟨rfl, hc⟩
  · rw [Bool.not_eq_true] at hc
    rw [if_neg (show ¬(o.signers.contains (chosenSigner p o) = true) from by
      rw [hc]; decide)]
    refine ⟨⟨fun _ => hc, fun _ => rfl⟩, ?_⟩
    intro r hr
    cases hr

/-- Witness for C4: with signers `foo, bar`, an unset `params.signer`
selects the preferred signer `foo`; `params.signer = "qux"` fails with
`SignerUnavailable`. -/
theorem signer_choice_witness :
    (resolveTransaction Json.null {} ⟨0, 0, "", ["foo", "bar"], "foo"⟩
        = .error .signerUnavailable ↔
      (["foo", "bar"] : List String).contains (chosenSigner {}
        ⟨0, 0, "", ["foo", "bar"], "foo"⟩) = false) ∧
    ∀ r, resolveTransaction Json.null {} ⟨0, 0, "", ["foo", "bar"], "foo"⟩ = .ok r →
      r.signer = chosenSigner {} ⟨0, 0, "", ["foo", "bar"], "foo"⟩ ∧
        (["foo", "bar"] : List String).contains r.signer = true :=
  signer_choice_amended Json.null {} ⟨0, 0, "", ["foo", "bar"], "foo"⟩

/-- Counterexample to C4 as stated: `params.signer` is set to the empty
string, which is not a member of `signers = ["bob"]`, so the claimed rule
demands `SignerUnavailable`; the source's truthiness test falls back to the
preferred signer instead and succeeds with `bob`. -/
theorem signer_choice_counterexample :
    resolveTransaction Json.null ⟨some "", none, none⟩ ⟨0, 0, "", ["bob"], "bob"⟩
        = .ok ⟨Json.null, "bob"⟩ ∧
      (["bob"] : List String).contains "" = false := by
  refine ⟨?_, by decide⟩
  rw [resolveTransaction_eq]
  rw [show chosenSigner ⟨some "", none, none⟩ ⟨0, 0, "", ["bob"], "bob"⟩ = "bob" from
    rfl, if_pos (by decide)]
  simp only [jwalk]

/-- C2 (amended): for every transaction `t` and parameters `p`,
`decode (encodeTx t p)` returns `t` and `p` whenever the encoder succeeds
(the payload is Latin-1 encodable) and no parameter field holds a falsy
non-default value — `no_broadcast = some false`, an empty signer or an
empty callback are flattened to absent by the encoder's truthiness tests
and do not survive the round trip. -/
theorem tx_roundtrip_amended (t : Json) (p : Parameters) (u : String)
    (hnb : p.no_broadcast ≠ some false)
    (hs : p.signer ≠ some "")
    (hcb : p.callback ≠ some "")
    (henc : encodeTx t p = some u) :
    decode u = .ok ⟨t, p⟩ :=
  decode_encodeTx t p u hnb hs hcb henc

/-- Witness for C2: the null transaction with default parameters encodes
to `steem://sign/tx/bnVsbA..` and decodes back. -/
theorem tx_roundtrip_witness :
    encodeTx Json.null {} = some "steem://sign/tx/bnVsbA.." ∧
    decode "steem://sign/tx/bnVsbA.." = .ok ⟨Json.null, {}⟩ := by
  have h1 : encodeTx Json.null {} = some "steem://sign/tx/bnVsbA.." := by
    rw [encodeTx, encodeJson, show jser Json.null = "null".data from by simp [jser]]
    rfl
  exact ⟨h1, tx_roundtrip_amended Json.null {} _ (by decide) (by decide) (by decide) h1⟩

/-- Counterexample to C2 as stated: `no_broadcast = some false` encodes to
the same URI as the default parameters, and decoding returns `no_broadcast
= none`, not the `some false` that was encoded. -/
theorem tx_roundtrip_counterexample :
    encodeTx Json.null ⟨none, none, some false⟩ = some "steem://sign/tx/bnVsbA.." ∧
    decode "steem://sign/tx/bnVsbA.." = .ok ⟨Json.null, ⟨none, none, none⟩⟩ ∧
    (⟨none, none, none⟩ : Parameters) ≠ ⟨none, none, some false⟩ := by
  refine ⟨?_, ?_, by decide⟩
  · rw [encodeTx, encodeJson, show jser Json.null = "null".data from by simp [jser]]
    rfl
  · rfl

/-- Decoding inverts `encodeOps` with default parameters, whatever JSON
value — ordered sequence or not — the payload holds. -/
theorem decode_encodeOps (v : Json) (u : String) (henc : encodeOps v {} = some u) :
    decode u = .ok ⟨synthTx v, {}⟩ := by
  rw [encodeOps] at henc
  cases hej : encodeJson v with
  | none =>
      rw [hej] at henc
      simp only [] at henc
      cases henc
  | some pay =>
    rw [hej, show encodeParameters {} = some [] from rfl] at henc
    simp only [Option.some.injEq] at henc
    subst henc
    have hpay : b64uEnc (jser v) = some pay := hej
    have hchars := b64uEnc_chars hpay
    have hp4 : ∀ c ∈ ('o' :: 'p' :: 's' :: '/' :: pay), c ≠ '#' ∧ c ≠ '?' := by
      intro c hc
      rcases List.mem_cons.mp hc with rfl | hc
      · exact ⟨by decide, by decide⟩
      rcases List.mem_cons.mp hc with rfl | hc
      · exact ⟨by decide, by decide⟩
      rcases List.mem_cons.mp hc with rfl | hc
      · exact ⟨by decide, by decide⟩
      rcases List.mem_cons.mp hc with rfl | hc
      · exact ⟨by decide, by decide⟩
      exact ⟨(hchars c hc).2.2.1, (hchars c hc).2.1⟩
    have hurl : parseUrl ("steem://sign/ops/".data ++ pay ++ []) =
        some ⟨"steem:".data, "sign".data, '/' :: 'o' :: 'p' :: 's' :: '/' :: pay, []⟩ := by
      rw [List.append_nil]
      exact parseUrl_steem_noquery ('o' :: 'p' :: 's' :: '/' :: pay) hp4
    have hsplit : splitSep '/' ('/' :: 'o' :: 'p' :: 's' :: '/' :: pay)
        = [[], ['o', 'p', 's'], pay] :=
      splitSep_path ['o', 'p', 's'] pay (by decide) (fun c hc => (hchars c hc).1)
    have hdec : b64uDec pay = some (jser v) := b64uDec_b64uEnc hpay
    simp only [decode, hurl, hsplit, List.drop_succ_cons, List.drop_zero,
      List.head?_cons, List.headD_cons, hdec, jsonParse_jser, decodeParams_nil]
    rw [if_neg (by decide), if_neg (by decide), if_neg (by decide), if_neg (by decide),
      if_pos (by decide)]

/-- C5 (amended): `decode` performs no structural validation: whatever JSON
value an `ops` payload decodes to — ordered sequence or not — decoding
succeeds, placing the value in `operations` unchanged; `tx` payloads are
likewise returned as decoded, with no required-field check. -/
theorem decode_unvalidated_amended (v : Json) (u : String)
    (henc : encodeOps v {} = some u) :
    decode u = .ok ⟨synthTx v, {}⟩ :=
  decode_encodeOps v u henc

/-- Witness for C5: the number 7 — not an ordered sequence — as `ops`
payload decodes fine. -/
theorem decode_unvalidated_witness :
    encodeOps (Json.num 7) {} = some "steem://sign/ops/Nw.." ∧
    decode "steem://sign/ops/Nw.." = .ok ⟨synthTx (Json.num 7), {}⟩ := by
  have h1 : encodeOps (Json.num 7) {} = some "steem://sign/ops/Nw.." := by
    rw [encodeOps, encodeJson, show jser (Json.num 7) = ['7'] from by
      norm_num [jser, intChars, natChars]]
    rfl
  exact ⟨h1, decode_unvalidated_amended (Json.num 7) _ h1⟩

/-- Counterexample to C5 as stated: the `ops` URI carrying the JSON value
`null` — not an ordered sequence — decodes successfully, and the decoded
transaction's `operations` field is `null`. -/
theorem decode_unvalidated_counterexample :
    decode "steem://sign/ops/bnVsbA.." = .ok ⟨Json.obj
      [("ref_block_num", Json.str "__ref_block_num"),
       ("ref_block_prefix", Json.str "__ref_block_prefix"),
       ("expiration", Json.str "__expiration"),
       ("extensions", Json.arr []),
       ("operations", Json.null)], {}⟩ := rfl

/-- C6 (amended): `decode` Base64u/JSON-decodes the payload segment before
inspecting the kind segment: an undecodable payload fails with
`InvalidPayload` whatever the kind is, and `InvalidSigningAction` is raised
for an unrecognized kind only when the payload decoded. -/
theorem payload_first_amended (kind pay : List Char)
    (hk : ∀ c ∈ kind, c ≠ '/' ∧ c ≠ '?' ∧ c ≠ '#')
    (hp : ∀ c ∈ pay, c ≠ '/' ∧ c ≠ '?' ∧ c ≠ '#') :
    (b64uDec pay = none →
      decode (String.mk ("steem://sign/".data ++ (kind ++ '/' :: pay)))
        = .error .invalidPayload) ∧
    (∀ bin v, b64uDec pay = some bin → jsonParse bin = some v →
      kind ≠ "tx".data → kind ≠ "op".data → kind ≠ "ops".data →
      decode (String.mk ("steem://sign/".data ++ (kind ++ '/' :: pay)))
        = .error .invalidSigningAction) := by
  have hpath : ∀ c ∈ kind ++ '/' :: pay, c ≠ '#' ∧ c ≠ '?' := by
    intro c hc
    rcases List.mem_append.mp hc with h | h
    · exact ⟨(hk c h).2.2, (hk c h).2.1⟩
    · rcases List.mem_cons.mp h with rfl | h
      · exact ⟨by decide, by decide⟩
      · exact ⟨(hp c h).2.2, (hp c h).2.1⟩
  have hurl := parseUrl_steem_noquery (kind ++ '/' :: pay) hpath
  have hsplit := splitSep_path kind pay (fun c hc => (hk c hc).1) (fun c hc => (hp c hc).1)
  constructor
  · intro hfail
    simp only [decode, hurl, hsplit, List.drop_succ_cons, List.drop_zero,
      List.head?_cons, hfail]
    rw [if_neg (by decide), if_neg (by decide)]
  · intro bin v hbin hv hk1 hk2 hk3
    simp only [decode, hurl, hsplit, List.drop_succ_cons, List.drop_zero,
      List.head?_cons, List.headD_cons, hbin, hv]
    rw [if_neg (by decide), if_neg (by decide), if_neg hk1, if_neg hk2, if_neg hk3]

/-- Witness for C6: kind `foo` with the undecodable payload `!!` fails with
`InvalidPayload`, not `InvalidSigningAction`. -/
theorem payload_first_witness :
    decode (String.mk ("steem://sign/".data ++ ("foo".data ++ '/' :: "!!".data)))
      = .error .invalidPayload :=
  (payload_first_amended "foo".data "!!".data (by decide) (by decide)).1 (by decide)

/-- Counterexample to C6 as stated: for `steem://sign/foo/!!` — unknown
kind `foo`, payload `!!` that is not Base64u — the claim demands
`InvalidSigningAction`; the source decodes the payload first and fails with
`InvalidPayload`. -/
theorem payload_first_counterexample :
    decode "steem://sign/foo/!!" = .error .invalidPayload ∧
      DecodeError.invalidPayload ≠ DecodeError.invalidSigningAction :=
  ⟨rfl, by decide⟩

/-- C7 (amended): extra trailing path segments are silently dropped by the
destructuring of the split path — decoding `steem://sign/<kind>/<payload>/
<junk>` behaves exactly as without the extra segment. A missing payload
segment still fails (inside the payload try/catch, as `InvalidPayload`). -/
theorem extra_segments_amended (kind pay junk : List Char)
    (hk : ∀ c ∈ kind, c ≠ '/' ∧ c ≠ '?' ∧ c ≠ '#')
    (hp : ∀ c ∈ pay, c ≠ '/' ∧ c ≠ '?' ∧ c ≠ '#')
    (hj : ∀ c ∈ junk, c ≠ '/' ∧ c ≠ '?' ∧ c ≠ '#') :
    decode (String.mk ("steem://sign/".data ++ (kind ++ '/' :: (pay ++ '/' :: junk))))
      = decode (String.mk ("steem://sign/".data ++ (kind ++ '/' :: pay))) := by
  have hpath1 : ∀ c ∈ kind ++ '/' :: (pay ++ '/' :: junk), c ≠ '#' ∧ c ≠ '?' := by
    intro c hc
    rcases List.mem_append.mp hc with h | h
    · exact ⟨(hk c h).2.2, (hk c h).2.1⟩
    rcases List.mem_cons.mp h with rfl | h
    · exact ⟨by decide, by decide⟩
    rcases List.mem_append.mp h with h | h
    · exact ⟨(hp c h).2.2, (hp c h).2.1⟩
    rcases List.mem_cons.mp h with rfl | h
    · exact ⟨by decide, by decide⟩
    exact ⟨(hj c h).2.2, (hj c h).2.1⟩
  have hpath2 : ∀ c ∈ kind ++ '/' :: pay, c ≠ '#' ∧ c ≠ '?' := by
    intro c hc
    rcases List.mem_append.mp hc with h | h
    · exact ⟨(hk c h).2.2, (hk c h).2.1⟩
    rcases List.mem_cons.mp h with rfl | h
    · exact ⟨by decide, by decide⟩
    exact ⟨(hp c h).2.2, (hp c h).2.1⟩
  have hurl1 := parseUrl_steem_noquery (kind ++ '/' :: (pay ++ '/' :: junk)) hpath1
  have hurl2 := parseUrl_steem_noquery (kind ++ '/' :: pay) hpath2
  have hsplit1 : splitSep '/' ('/' :: (kind ++ '/' :: (pay ++ '/' :: junk)))
      = [[], kind, pay, junk] := by
    rw [splitSep, if_pos rfl, splitSep_append '/' kind (fun c hc => (hk c hc).1),
      splitSep_append '/' pay (fun c hc => (hp c hc).1),
      splitSep_free '/' junk (fun c hc => (hj c hc).1)]
  have hsplit2 := splitSep_path kind pay (fun c hc => (hk c hc).1)
    (fun c hc => (hp c hc).1)
  simp only [decode, hurl1, hurl2, hsplit1, hsplit2, List.drop_succ_cons,
    List.drop_zero, List.head?_cons, List.headD_cons]

/-- Witness for C7: the junk segment after the payload of the null
transaction changes nothing. -/
theorem extra_segments_witness :
    decode (String.mk ("steem://sign/".data ++ ("tx".data ++ '/' ::
        ("bnVsbA..".data ++ '/' :: "junk".data))))
      = decode (String.mk ("steem://sign/".data ++ ("tx".data ++ '/' ::
        "bnVsbA..".data))) :=
  extra_segments_amended "tx".data "bnVsbA..".data "junk".data (by decide) (by decide)
    (by decide)

/-- Counterexample to C7 as stated: a URI with three path segments — the
claim demands failure — decodes successfully. -/
theorem extra_segments_counterexample :
    decode "steem://sign/tx/bnVsbA../junk" = .ok ⟨Json.null, {}⟩ := rfl

/-- C8 (amended): `resolveCallback` replaces each template token with
`ctx[name] || ''` — the field stringified when truthy, the empty string
when the field is absent OR falsy (`block`/`txn` equal to 0, an empty
string), while text before the token (and unrecognized text generally)
passes through; the scan then continues on the rest. -/
theorem callback_falsy_amended (ctx : TransactionConfirmation) (a b : List Char)
    (ha : ∀ c ∈ a, c ≠ '\x7b') :
    resolveCallback (String.mk (a ++ ('\x7b' :: '\x7b' :: 'b' :: 'l' :: 'o' :: 'c'
        :: 'k' :: '\x7d' :: '\x7d' :: b))) ctx
      = String.mk (a ++ (confNum ctx.block ++ cbSubst ctx b)) ∧
    confNum (some 0) = [] ∧ confNum none = [] ∧
    ∀ n : Int, n ≠ 0 → confNum (some n) = intChars n := by
  refine ⟨?_, rfl, rfl, ?_⟩
  · rw [resolveCallback]
    refine congrArg String.mk ?_
    rw [show (String.mk (a ++ ('\x7b' :: '\x7b' :: 'b' :: 'l' :: 'o' :: 'c' :: 'k'
      :: '\x7d' :: '\x7d' :: b))).data = a ++ ('\x7b' :: '\x7b' :: 'b' :: 'l' :: 'o'
      :: 'c' :: 'k' :: '\x7d' :: '\x7d' :: b) from rfl]
    rw [cbSubst_nobrace ctx a _ ha, cbSubst_block]
  · intro n hn
    rw [confNum, if_neg hn]

/-- Witness for C8: with `block = some 0` — present but falsy — the token
is replaced by the empty string. -/
theorem callback_falsy_witness :
    resolveCallback (String.mk ("https://x/cb?b=".data ++ ('\x7b' :: '\x7b' :: 'b'
        :: 'l' :: 'o' :: 'c' :: 'k' :: '\x7d' :: '\x7d' :: [])))
        ⟨"ab", none, some 0, none⟩
      = String.mk ("https://x/cb?b=".data ++ (confNum (some 0) ++
          cbSubst ⟨"ab", none, some 0, none⟩ [])) ∧
    confNum (some 0) = [] ∧ confNum none = [] ∧
    ∀ n : Int, n ≠ 0 → confNum (some n) = intChars n :=
  callback_falsy_amended ⟨"ab", none, some 0, none⟩ "https://x/cb?b=".data []
    (by decide)

/-- Counterexample to C8 as stated: on the spec's own template, `id` absent
and `block` present with value 0 both produce the empty string — the claim
says a present `block` is stringified (`"0"`), and empty is substituted
exactly when the field is absent. -/
theorem callback_falsy_counterexample :
    resolveCallback "https://x/cb?tx=\x7b\x7bid\x7d\x7d&b=\x7b\x7bblock\x7d\x7d"
        ⟨"ab", none, some 0, none⟩ = "https://x/cb?tx=&b=" ∧
      (⟨"ab", none, some 0, none⟩ : TransactionConfirmation).block ≠ none := by
  refine ⟨?_, by decide⟩
  rw [resolveCallback]
  refine congrArg String.mk ?_
  rw [show ("https://x/cb?tx=\x7b\x7bid\x7d\x7d&b=\x7b\x7bblock\x7d\x7d".data
      : List Char)
    = "https://x/cb?tx=".data ++ ('\x7b' :: '\x7b' :: 'i' :: 'd' :: '\x7d' :: '\x7d'
      :: ("&b=".data ++ ('\x7b' :: '\x7b' :: 'b' :: 'l' :: 'o' :: 'c' :: 'k' :: '\x7d'
      :: '\x7d' :: []))) from rfl]
  rw [cbSubst_nobrace _ _ _ (by decide), cbSubst_id, cbSubst_nobrace _ _ _ (by decide),
    cbSubst_block, cbSubst_nil]
  rfl

/-- C9 (amended): the query is built as `nb`, then `s`, then `cb`, in that
order; `nb` (empty value) is emitted iff `no_broadcast = some true`, `s`
iff `signer` is set AND non-empty, `cb` (Base64u of the callback) iff
`callback` is set AND non-empty — a set-but-empty signer or callback is
falsy and omitted exactly like an absent one. -/
theorem query_truthy_amended (p : Parameters) {qs : List Char}
    (henc : encodeParameters p = some qs) :
    ∃ nbp sp cbp : List (String × String),
      qs = (if formUrlEncode (nbp ++ sp ++ cbp) = [] then []
            else '?' :: formUrlEncode (nbp ++ sp ++ cbp)) ∧
      (if p.no_broadcast = some true then nbp = [("nb", "")] else nbp = []) ∧
      (∀ s, p.signer = some s → s ≠ "" → sp = [("s", s)]) ∧
      ((p.signer = none ∨ p.signer = some "") → sp = []) ∧
      (∀ cb, p.callback = some cb → cb ≠ "" →
        ∃ e, b64uEnc cb.data = some e ∧ cbp = [("cb", String.mk e)]) ∧
      ((p.callback = none ∨ p.callback = some "") → cbp = []) := by
  obtain ⟨sg, cb, nb⟩ := p
  rcases cb with _ | cbv
  · rw [encodeParameters] at henc
    simp only [] at henc
    injection henc with henc
    refine ⟨_, _, _, henc.symm, ?_, ?_, ?_, ?_, ?_⟩
    · by_cases hnb : nb = some true
      · rw [if_pos hnb, if_pos hnb]
      · rw [if_neg hnb, if_neg hnb]
    · intro s hs hne
      have hs' : sg = some s := hs
      subst hs'
      show (if s = "" then [] else [("s", s)]) = [("s", s)]
      rw [if_neg hne]
    · intro h
      have h' : sg = none ∨ sg = some "" := h
      rcases h' with rfl | rfl
      · rfl
      · rfl
    · intro c hc hne
      exact Option.noConfusion hc
    · intro _
      rfl
  · by_cases hcbv : cbv = ""
    · subst hcbv
      rw [encodeParameters] at henc
      simp only [] at henc
      rw [if_pos trivial] at henc
      simp only [] at henc
      injection henc with henc
      refine ⟨_, _, _, henc.symm, ?_, ?_, ?_, ?_, ?_⟩
      · by_cases hnb : nb = some true
        · rw [if_pos hnb, if_pos hnb]
        · rw [if_neg hnb, if_neg hnb]
      · intro s hs hne
        have hs' : sg = some s := hs
        subst hs'
        show (if s = "" then [] else [("s", s)]) = [("s", s)]
        rw [if_neg hne]
      · intro h
        have h' : sg = none ∨ sg = some "" := h
        rcases h' with rfl | rfl
        · rfl
        · rfl
      · intro c hc hne
        have hc' : ("" : String) = c := by injection hc
        subst hc'
        exact absurd rfl hne
      · intro _
        rfl
    · cases hbe : b64uEnc cbv.data with
      | none =>
          rw [encodeParameters] at henc
          simp only [if_neg hcbv, hbe, Option.map_none'] at henc
          cases henc
      | some e =>
          rw [encodeParameters] at henc
          simp only [if_neg hcbv, hbe, Option.map_some'] at henc
          injection henc with henc
          refine ⟨_, _, _, henc.symm, ?_, ?_, ?_, ?_, ?_⟩
          · by_cases hnb : nb = some true
            · rw [if_pos hnb, if_pos hnb]
            · rw [if_neg hnb, if_neg hnb]
          · intro s hs hne
            have hs' : sg = some s := hs
            subst hs'
            show (if s = "" then [] else [("s", s)]) = [("s", s)]
            rw [if_neg hne]
          · intro h
            have h' : sg = none ∨ sg = some "" := h
            rcases h' with rfl | rfl
            · rfl
            · rfl
          · intro c hc hne
            have hc' : cbv = c := by injection hc
            subst hc'
            exact ⟨e, hbe, rfl⟩
          · intro h
            have h' : some cbv = none ∨ some cbv = some "" := h
            rcases h' with h2 | h2
            · exact Option.noConfusion h2
            · have : cbv = "" := by injection h2
              exact absurd this hcbv

/-- Witness for C9: signer set to the empty string with `no_broadcast =
some false` — both falsy — yields the empty query. -/
theorem query_truthy_witness :
    ∃ nbp sp cbp : List (String × String),
      ([] : List Char) = (if formUrlEncode (nbp ++ sp ++ cbp) = [] then []
            else '?' :: formUrlEncode (nbp ++ sp ++ cbp)) ∧
      (if (⟨some "", none, some false⟩ : Parameters).no_broadcast = some true then
        nbp = [("nb", "")] else nbp = []) ∧
      (∀ s, (⟨some "", none, some false⟩ : Parameters).signer = some s → s ≠ "" →
        sp = [("s", s)]) ∧
      (((⟨some "", none, some false⟩ : Parameters).signer = none ∨
        (⟨some "", none, some false⟩ : Parameters).signer = some "") → sp = []) ∧
      (∀ cb, (⟨some "", none, some false⟩ : Parameters).callback = some cb → cb ≠ "" →
        ∃ e, b64uEnc cb.data = some e ∧ cbp = [("cb", String.mk e)]) ∧
      (((⟨some "", none, some false⟩ : Parameters).callback = none ∨
        (⟨some "", none, some false⟩ : Parameters).callback = some "") → cbp = []) :=
  query_truthy_amended ⟨some "", none, some false⟩ rfl

/-- Counterexample to C9 as stated: the signer is set (to the empty
string), yet no `s` key is emitted — the whole query is empty. -/
theorem query_truthy_counterexample :
    encodeParameters ⟨some "", none, none⟩ = some [] ∧
      (⟨some "", none, none⟩ : Parameters).signer ≠ none :=
  ⟨rfl, by decide⟩
